/-
Verification of the Hand2Word fingerspelling pipeline.

Shallow embedding, in Lean 4, of the pure logic of the repository:
  * the two Levenshtein implementations
    (word-resolver-service/services/word_resolver.py `_levenshtein_distance`,
     iac/lambda/kb-aliases/lambda_function.py `levenshtein_distance`),
  * the sliding-window commit engine
    (word-resolver-service/services/commit_engine.py, redis_manager.py),
  * word finalization (word-resolver-service/services/kinesis_consumer.py),
  * the word resolver's client-side ranking (word_resolver.py),
  * the ingress handler (iac/lambda/ingress_handler.py),
  * alias validation and confusion-weighted scoring
    (iac/lambda/kb-aliases/lambda_function.py),
  * hand extraction and landmark preprocessing
    (letter-model-service/services/asl_service.py, keypoint_classifier.py).

Python floats are modelled as rationals, Python ints as Nat/Int, Python
strings as lists of characters.  Redis / Mongo state is passed explicitly.
-/
import Mathlib

set_option maxHeartbeats 1000000

/-! # Reference Levenshtein distance

A textbook recursive definition of edit distance over character lists,
used as the specification both DP implementations are measured against. -/

/-- Substitution cost of one character for another. -/
def levCost (x y : Char) : ℕ := if x = y then 0 else 1

/-- Reference Levenshtein distance (front recursion, full three-way min). -/
def lev : List Char → List Char → ℕ
  | [], ys => ys.length
  | _ :: xs, [] => xs.length + 1
  | x :: xs, y :: ys =>
      min (1 + lev xs (y :: ys)) (min (1 + lev (x :: xs) ys) (levCost x y + lev xs ys))
termination_by xs ys => xs.length + ys.length
decreasing_by all_goals simp_arith

/-- The three-way minimum is one of its arguments and below each of them;
packaged this way so `omega` can treat the minimum as an atom. -/
theorem min3_facts (A B C : ℕ) :
    (min A (min B C) = A ∨ min A (min B C) = B ∨ min A (min B C) = C) ∧
    min A (min B C) ≤ A ∧ min A (min B C) ≤ B ∧ min A (min B C) ≤ C := by
  refine ⟨?_, min_le_left _ _,
    le_trans (min_le_right _ _) (min_le_left _ _),
    le_trans (min_le_right _ _) (min_le_right _ _)⟩
  rcases min_cases A (min B C) with ⟨h, _⟩ | ⟨h, _⟩
  · exact Or.inl h
  · rcases min_cases B C with ⟨h2, _⟩ | ⟨h2, _⟩
    · exact Or.inr (Or.inl (h.trans h2))
    · exact Or.inr (Or.inr (h.trans h2))

theorem levCost_le_one (x y : Char) : levCost x y ≤ 1 := by
  unfold levCost; split <;> omega

theorem lev_nil_left (ys : List Char) : lev [] ys = ys.length := by
  simp [lev]

theorem lev_nil_right (xs : List Char) : lev xs [] = xs.length := by
  cases xs <;> simp [lev]

theorem lev_cons_cons (x y : Char) (xs ys : List Char) :
    lev (x :: xs) (y :: ys) =
      min (1 + lev xs (y :: ys)) (min (1 + lev (x :: xs) ys) (levCost x y + lev xs ys)) := by
  simp [lev]

/-- Prepending a character to the first argument raises the distance by at most 1. -/
theorem lev_cons_left_le (x : Char) (xs ys : List Char) :
    lev (x :: xs) ys ≤ 1 + lev xs ys := by
  cases ys with
  | nil => simp [lev_nil_right]; omega
  | cons y ys =>
      rw [lev_cons_cons]
      have hf := min3_facts (1 + lev xs (y :: ys)) (1 + lev (x :: xs) ys)
        (levCost x y + lev xs ys)
      omega

/-- Prepending a character to the second argument raises the distance by at most 1. -/
theorem lev_cons_right_le (y : Char) (xs ys : List Char) :
    lev xs (y :: ys) ≤ 1 + lev xs ys := by
  cases xs with
  | nil => simp [lev_nil_left]; omega
  | cons x xs =>
      rw [lev_cons_cons]
      have hf := min3_facts (1 + lev xs (y :: ys)) (1 + lev (x :: xs) ys)
        (levCost x y + lev xs ys)
      omega

/-- Dropping the head of the first argument lowers the distance by at most 1. -/
theorem lev_le_cons_left (x : Char) (xs ys : List Char) :
    lev xs ys ≤ 1 + lev (x :: xs) ys := by
  induction ys with
  | nil => simp [lev_nil_right]; omega
  | cons y ys ih =>
      rw [lev_cons_cons]
      have hf := min3_facts (1 + lev xs (y :: ys)) (1 + lev (x :: xs) ys)
        (levCost x y + lev xs ys)
      have h2 := lev_cons_right_le y xs ys
      have hc := levCost_le_one x y
      omega

/-- Dropping the head of the second argument lowers the distance by at most 1. -/
theorem lev_le_cons_right (y : Char) (xs ys : List Char) :
    lev xs ys ≤ 1 + lev xs (y :: ys) := by
  induction xs with
  | nil => simp [lev_nil_left]; omega
  | cons x xs ih =>
      rw [lev_cons_cons]
      have hf := min3_facts (1 + lev xs (y :: ys)) (1 + lev (x :: xs) ys)
        (levCost x y + lev xs ys)
      have h1 := lev_cons_left_le x xs ys
      have hc := levCost_le_one x y
      omega

/-- When the heads agree, the distance is the distance of the tails. -/
theorem lev_cons_eq (x : Char) (xs ys : List Char) :
    lev (x :: xs) (x :: ys) = lev xs ys := by
  rw [lev_cons_cons]
  have c0 : levCost x x = 0 := by simp [levCost]
  have hf := min3_facts (1 + lev xs (x :: ys)) (1 + lev (x :: xs) ys)
    (levCost x x + lev xs ys)
  have h1 := lev_le_cons_right x xs ys
  have h2 := lev_le_cons_left x xs ys
  omega


set_option maxHeartbeats 4000000 in
/-- Min-of-min shuffle identity underlying the last-character recursion. -/
theorem levMinShuffle (A B C D E F G H I c1 c2 : ℕ) :
    min (1 + min (1+A) (min (1+D) (c1+G)))
      (min (1 + min (1+B) (min (1+E) (c1+H))) (c2 + min (1+C) (min (1+F) (c1+I)))) =
    min (1 + min (1+A) (min (1+B) (c2+C)))
      (min (1 + min (1+D) (min (1+E) (c2+F))) (c1 + min (1+G) (min (1+H) (c2+I)))) := by
  simp only [← min_add_add_left]
  simp [min_assoc, min_comm, min_left_comm, add_assoc, add_comm, add_left_comm]

/-- Levenshtein distance satisfies the analogous recursion on the last
characters of both arguments. -/
theorem lev_concat_concat :
    ∀ n (u v : List Char) (x y : Char), u.length + v.length ≤ n →
    lev (u ++ [x]) (v ++ [y]) =
      min (1 + lev u (v ++ [y])) (min (1 + lev (u ++ [x]) v) (levCost x y + lev u v)) := by
  intro n
  induction n with
  | zero =>
      intro u v x y h
      have hu : u = [] := by cases u <;> simp_all
      have hv : v = [] := by cases v <;> simp_all
      subst hu; subst hv
      simp [lev_cons_cons, lev_nil_left, lev_nil_right]
  | succ n ih =>
      intro u v x y h
      match u, v with
      | [], [] =>
          simp [lev_cons_cons, lev_nil_left, lev_nil_right]
      | [], b :: v' =>
          have h1 := ih [] v' x y (by simp at h ⊢; omega)
          simp only [List.nil_append, List.cons_append] at h1 ⊢
          rw [lev_cons_cons x b [] (v' ++ [y]), h1, lev_cons_cons x b [] v']
          have hP : lev [] (v' ++ [y]) = v'.length + 1 := by
            simp only [lev_nil_left, List.length_append, List.length_cons, List.length_nil]
          have hQ : lev [] (b :: v') = v'.length + 1 := by
            simp only [lev_nil_left, List.length_cons]
          have hR : lev [] (b :: (v' ++ [y])) = v'.length + 2 := by
            simp only [lev_nil_left, List.length_append, List.length_cons, List.length_nil]
          have hS : lev [] v' = v'.length := lev_nil_left v'
          rw [hP, hQ, hR, hS]
          have hc1 := levCost_le_one x y
          have hc2 := levCost_le_one x b
          omega
      | a :: u', [] =>
          have h1 := ih u' [] x y (by simp at h ⊢; omega)
          simp only [List.nil_append, List.cons_append] at h1 ⊢
          rw [lev_cons_cons a y (u' ++ [x]) [], h1, lev_cons_cons a y u' []]
          have hP : lev (u' ++ [x]) [] = u'.length + 1 := by
            simp only [lev_nil_right, List.length_append, List.length_cons, List.length_nil]
          have hP2 : lev (a :: (u' ++ [x])) [] = u'.length + 2 := by
            simp only [lev_nil_right, List.length_append, List.length_cons, List.length_nil]
          have hQ : lev u' [] = u'.length := lev_nil_right u'
          have hQ2 : lev (a :: u') [] = u'.length + 1 := by
            simp only [lev_nil_right, List.length_cons]
          rw [hP, hP2, hQ, hQ2]
          have hc1 := levCost_le_one x y
          have hc2 := levCost_le_one a y
          omega
      | a :: u', b :: v' =>
          have e1 := ih u' (b :: v') x y (by simp at h ⊢; omega)
          have e2 := ih (a :: u') v' x y (by simp at h ⊢; omega)
          have e3 := ih u' v' x y (by simp at h ⊢; omega)
          simp only [List.cons_append] at e1 e2 e3 ⊢
          rw [lev_cons_cons a b (u' ++ [x]) (v' ++ [y]), e1, e2, e3,
            lev_cons_cons a b u' (v' ++ [y]), lev_cons_cons a b (u' ++ [x]) v',
            lev_cons_cons a b u' v']
          exact levMinShuffle (lev u' (b :: (v' ++ [y]))) (lev (a :: u') (v' ++ [y]))
            (lev u' (v' ++ [y])) (lev (u' ++ [x]) (b :: v')) (lev (a :: (u' ++ [x])) v')
            (lev (u' ++ [x]) v') (lev u' (b :: v')) (lev (a :: u') v') (lev u' v')
            (levCost x y) (levCost a b)

/-- Levenshtein distance is invariant under reversing both arguments. -/
theorem lev_reverse :
    ∀ n (xs ys : List Char), xs.length + ys.length ≤ n →
    lev xs.reverse ys.reverse = lev xs ys := by
  intro n
  induction n with
  | zero =>
      intro xs ys h
      have hx : xs = [] := by cases xs <;> simp_all
      have hy : ys = [] := by cases ys <;> simp_all
      subst hx; subst hy; rfl
  | succ n ih =>
      intro xs ys h
      match xs, ys with
      | [], ys => simp [lev_nil_left]
      | x :: xs', [] => simp [lev_nil_right]
      | x :: xs', y :: ys' =>
          have hr1 : (x :: xs').reverse = xs'.reverse ++ [x] := by simp
          have hr2 : (y :: ys').reverse = ys'.reverse ++ [y] := by simp
          rw [hr1, hr2]
          rw [lev_concat_concat (xs'.reverse.length + ys'.reverse.length) xs'.reverse ys'.reverse x y le_rfl]
          have e1 : lev xs'.reverse (ys'.reverse ++ [y]) = lev xs' (y :: ys') := by
            have := ih xs' (y :: ys') (by simp at h ⊢; omega)
            rw [← this]; simp
          have e2 : lev (xs'.reverse ++ [x]) ys'.reverse = lev (x :: xs') ys' := by
            have := ih (x :: xs') ys' (by simp at h ⊢; omega)
            rw [← this]; simp
          have e3 : lev xs'.reverse ys'.reverse = lev xs' ys' := ih xs' ys' (by simp at h ⊢; omega)
          rw [e1, e2, e3, lev_cons_cons]

/-- Levenshtein distance is symmetric. -/
theorem lev_symm :
    ∀ n (xs ys : List Char), xs.length + ys.length ≤ n →
    lev xs ys = lev ys xs := by
  intro n
  induction n with
  | zero =>
      intro xs ys h
      have hx : xs = [] := by cases xs <;> simp_all
      have hy : ys = [] := by cases ys <;> simp_all
      subst hx; subst hy; rfl
  | succ n ih =>
      intro xs ys h
      match xs, ys with
      | [], ys => simp [lev_nil_left, lev_nil_right]
      | x :: xs', [] => simp [lev_nil_left, lev_nil_right]
      | x :: xs', y :: ys' =>
          rw [lev_cons_cons, lev_cons_cons]
          have e1 := ih xs' (y :: ys') (by simp at h ⊢; omega)
          have e2 := ih (x :: xs') ys' (by simp at h ⊢; omega)
          have e3 := ih xs' ys' (by simp at h ⊢; omega)
          have hc : levCost x y = levCost y x := by
            unfold levCost
            by_cases hxy : x = y
            · simp [hxy]
            · have hyx : ¬ y = x := fun hh => hxy hh.symm
              simp [hxy, hyx]
          rw [e1, e2, e3, hc]
          omega

/-- Levenshtein distance vanishes exactly on equal strings. -/
theorem lev_eq_zero_iff : ∀ (xs ys : List Char), lev xs ys = 0 ↔ xs = ys := by
  intro xs
  induction xs with
  | nil =>
      intro ys
      simp [lev_nil_left, eq_comm, List.length_eq_zero]
  | cons x xs' ih =>
      intro ys
      cases ys with
      | nil => simp [lev_nil_right]
      | cons y ys' =>
          rw [lev_cons_cons]
          constructor
          · intro h0
            have hf := min3_facts (1 + lev xs' (y :: ys')) (1 + lev (x :: xs') ys')
              (levCost x y + lev xs' ys')
            have hcz : levCost x y = 0 ∧ lev xs' ys' = 0 := by omega
            have hxy : x = y := by
              by_contra hne
              have : levCost x y = 1 := by simp [levCost, hne]
              omega
            have := (ih ys').mp hcz.2
            simp [hxy, this]
          · intro he
            injection he with h1 h2
            subst h1; subst h2
            have h0 : lev xs' xs' = 0 := (ih xs').mpr rfl
            have hc : levCost x x = 0 := by simp [levCost]
            have hf := min3_facts (1 + lev xs' (x :: xs')) (1 + lev (x :: xs') xs')
              (levCost x x + lev xs' xs')
            have h1 := lev_le_cons_right x xs' xs'
            have h2 := lev_le_cons_left x xs' xs'
            omega

/-! # The two DP implementations of Levenshtein distance

`levenshtein_distance` embeds iac/lambda/kb-aliases/lambda_function.py
(rows indexed by prefixes of `s2`, full three-way min formula);
`resolver_levenshtein_distance` embeds `WordResolver._levenshtein_distance`
(shorter string first, diagonal shortcut on equal characters). -/

/-- One inner loop iteration list of the kb-aliases DP
(`for j, c2 in enumerate(s2): ... min(insertions, deletions, substitutions)`).
`prev` is the previous row (suffix starting at position j), `left` the last
value appended to the current row. -/
def kbRow (c1 : Char) : List Char → List ℕ → ℕ → List ℕ
  | [], _, _ => []
  | c2 :: t, p0 :: p1 :: ps, left =>
      let v := min (p1 + 1) (min (left + 1) (p0 + (if c1 = c2 then 0 else 1)))
      v :: kbRow c1 t (p1 :: ps) v
  | _ :: _, _, _ => []

/-- Outer loop of the kb-aliases DP (`for i, c1 in enumerate(s1)`). -/
def kbOuter : List Char → List Char → ℕ → List ℕ → List ℕ
  | [], _, _, prev => prev
  | c1 :: t, s2, i, prev => kbOuter t s2 (i + 1) ((i + 1) :: kbRow c1 s2 prev (i + 1))

/-- Embedding of `levenshtein_distance(s1, s2)` after the initial length swap. -/
def kbCore (s1 s2 : List Char) : ℕ :=
  if s2.length = 0 then s1.length
  else (kbOuter s1 s2 0 (List.range (s2.length + 1))).getLastD 0

/-- Embedding of `levenshtein_distance` from iac/lambda/kb-aliases/lambda_function.py:
recurses with swapped arguments when `len(s1) < len(s2)`. -/
def levenshtein_distance (s1 s2 : List Char) : ℕ :=
  if s1.length < s2.length then kbCore s2 s1 else kbCore s1 s2

/-- Specification of a DP row: distances from `x` to the reversed prefixes
of the scanned string, where `w` is the already-consumed reversed prefix. -/
def levRowSpec (x : List Char) (w : List Char) : List Char → List ℕ
  | [] => []
  | c :: t => lev x (c :: w) :: levRowSpec x (c :: w) t

theorem levRowSpec_nil_left :
    ∀ (t w : List Char), levRowSpec [] w t = List.range' (w.length + 1) t.length := by
  intro t
  induction t with
  | nil => intro w; simp [levRowSpec]
  | cons c t ih =>
      intro w
      rw [levRowSpec, List.length_cons, List.range'_succ, ih (c :: w)]
      simp [lev_nil_left]

theorem levRowSpec_init (s2 : List Char) :
    List.range (s2.length + 1) = lev [] [] :: levRowSpec [] [] s2 := by
  rw [List.range_eq_range', List.range'_succ, levRowSpec_nil_left]
  simp [lev_nil_left]

theorem levRowSpec_getLastD :
    ∀ (t w : List Char) (u : List Char) (d : ℕ),
      (lev u w :: levRowSpec u w t).getLastD d = lev u (List.reverseAux t w) := by
  intro t
  induction t with
  | nil => intro w u d; simp [levRowSpec, List.reverseAux]
  | cons c t ih =>
      intro w u d
      rw [levRowSpec, List.getLastD_cons, ih (c :: w) u (lev u w)]
      rfl

theorem kbRow_spec :
    ∀ (t w : List Char) (c1 : Char) (u : List Char),
      kbRow c1 t (lev u w :: levRowSpec u w t) (lev (c1 :: u) w) =
        levRowSpec (c1 :: u) w t := by
  intro t
  induction t with
  | nil => intro w c1 u; simp [kbRow, levRowSpec]
  | cons c2 t ih =>
      intro w c1 u
      rw [levRowSpec, levRowSpec, kbRow]
      have hv : min (lev u (c2 :: w) + 1)
          (min (lev (c1 :: u) w + 1) (lev u w + (if c1 = c2 then 0 else 1))) =
          lev (c1 :: u) (c2 :: w) := by
        rw [lev_cons_cons]
        unfold levCost
        omega
      rw [hv, ih (c2 :: w) c1 u]

theorem kbOuter_spec (s2 : List Char) :
    ∀ (t : List Char) (u : List Char),
      kbOuter t s2 u.length (lev u [] :: levRowSpec u [] s2) =
        lev (List.reverseAux t u) [] :: levRowSpec (List.reverseAux t u) [] s2 := by
  intro t
  induction t with
  | nil => intro u; rfl
  | cons c1 t ih =>
      intro u
      rw [kbOuter]
      have hrow : kbRow c1 s2 (lev u [] :: levRowSpec u [] s2) (u.length + 1) =
          levRowSpec (c1 :: u) [] s2 := by
        have h1 : u.length + 1 = lev (c1 :: u) [] := by rw [lev_nil_right]; rfl
        rw [h1]; exact kbRow_spec s2 [] c1 u
      rw [hrow]
      have hhead : ((u.length + 1) :: levRowSpec (c1 :: u) [] s2) =
          (lev (c1 :: u) [] :: levRowSpec (c1 :: u) [] s2) := by
        rw [lev_nil_right]; rfl
      rw [hhead]
      exact ih (c1 :: u)

theorem kbCore_eq_lev (s1 s2 : List Char) : kbCore s1 s2 = lev s1 s2 := by
  unfold kbCore
  by_cases h2 : s2.length = 0
  · have : s2 = [] := List.length_eq_zero.mp h2
    subst this
    simp [lev_nil_right]
  · rw [if_neg h2, levRowSpec_init s2]
    have h0 : (0 : ℕ) = ([] : List Char).length := rfl
    rw [show (0 : ℕ) = ([] : List Char).length from rfl,
      kbOuter_spec s2 s1 [], levRowSpec_getLastD]
    have hr1 : List.reverseAux s1 [] = s1.reverse := by simp [List.reverseAux_eq]
    have hr2 : List.reverseAux s2 [] = s2.reverse := by simp [List.reverseAux_eq]
    rw [hr1, hr2]
    exact lev_reverse (s1.length + s2.length) s1 s2 (by simp)

/-- The kb-aliases DP computes the reference Levenshtein distance. -/
theorem levenshtein_distance_eq_lev (s1 s2 : List Char) :
    levenshtein_distance s1 s2 = lev s1 s2 := by
  unfold levenshtein_distance
  by_cases h : s1.length < s2.length
  · rw [if_pos h, kbCore_eq_lev]
    exact (lev_symm (s1.length + s2.length) s1 s2 (by omega)).symm
  · rw [if_neg h, kbCore_eq_lev]

/-- Inner loop of `WordResolver._levenshtein_distance`
(`if c1 == c2: distances_.append(distances[i1]) else: 1 + min(...)`).
Rows are indexed by prefixes of the shorter string `s1`. -/
def wrRow (c2 : Char) : List Char → List ℕ → ℕ → List ℕ
  | [], _, _ => []
  | c1 :: t, d0 :: d1 :: ds, left =>
      let v := if c1 = c2 then d0 else 1 + min d0 (min d1 left)
      v :: wrRow c2 t (d1 :: ds) v
  | _ :: _, _, _ => []

/-- Outer loop of `WordResolver._levenshtein_distance`
(`for i2, c2 in enumerate(s2)`). -/
def wrOuter : List Char → List Char → ℕ → List ℕ → List ℕ
  | _, [], _, distances => distances
  | a, c2 :: t, i2, distances => wrOuter a t (i2 + 1) ((i2 + 1) :: wrRow c2 a distances (i2 + 1))

/-- Embedding of `WordResolver._levenshtein_distance` from
src/word-resolver-service/services/word_resolver.py: swaps so the first
list is the shorter one, then runs the DP and returns the last cell. -/
def resolver_levenshtein_distance (s1 s2 : List Char) : ℕ :=
  let p := if s2.length < s1.length then (s2, s1) else (s1, s2)
  (wrOuter p.1 p.2 0 (List.range (p.1.length + 1))).getLastD 0

theorem wrRow_spec :
    ∀ (t w : List Char) (c2 : Char) (vB : List Char),
      wrRow c2 t (lev vB w :: levRowSpec vB w t) (lev (c2 :: vB) w) =
        levRowSpec (c2 :: vB) w t := by
  intro t
  induction t with
  | nil => intro w c2 vB; simp [wrRow, levRowSpec]
  | cons c1 t ih =>
      intro w c2 vB
      rw [levRowSpec, levRowSpec, wrRow]
      have hv : (if c1 = c2 then lev vB w
          else 1 + min (lev vB w) (min (lev vB (c1 :: w)) (lev (c2 :: vB) w))) =
          lev (c2 :: vB) (c1 :: w) := by
        rw [lev_cons_cons]
        by_cases hc : c1 = c2
        · subst hc
          rw [if_pos rfl]
          have c0 : levCost c1 c1 = 0 := by simp [levCost]
          have h1 := lev_le_cons_right c1 vB w
          have h2 := lev_le_cons_left c1 vB w
          omega
        · rw [if_neg hc]
          have hcc : levCost c2 c1 = 1 := by
            have : ¬ c2 = c1 := fun hh => hc hh.symm
            simp [levCost, this]
          rw [hcc]
          omega
      rw [hv, ih (c1 :: w) c2 vB]

theorem wrOuter_spec (a : List Char) :
    ∀ (t : List Char) (vB : List Char),
      wrOuter a t vB.length (lev vB [] :: levRowSpec vB [] a) =
        lev (List.reverseAux t vB) [] :: levRowSpec (List.reverseAux t vB) [] a := by
  intro t
  induction t with
  | nil => intro vB; rfl
  | cons c2 t ih =>
      intro vB
      rw [wrOuter]
      have hrow : wrRow c2 a (lev vB [] :: levRowSpec vB [] a) (vB.length + 1) =
          levRowSpec (c2 :: vB) [] a := by
        have h1 : vB.length + 1 = lev (c2 :: vB) [] := by rw [lev_nil_right]; rfl
        rw [h1]; exact wrRow_spec a [] c2 vB
      rw [hrow]
      have hhead : ((vB.length + 1) :: levRowSpec (c2 :: vB) [] a) =
          (lev (c2 :: vB) [] :: levRowSpec (c2 :: vB) [] a) := by
        rw [lev_nil_right]; rfl
      rw [hhead]
      exact ih (c2 :: vB)

theorem wrCore_eq_lev (a b : List Char) :
    (wrOuter a b 0 (List.range (a.length + 1))).getLastD 0 = lev b a := by
  rw [levRowSpec_init a, show (0 : ℕ) = ([] : List Char).length from rfl,
    wrOuter_spec a b [], levRowSpec_getLastD]
  have hr1 : List.reverseAux b [] = b.reverse := by simp [List.reverseAux_eq]
  have hr2 : List.reverseAux a [] = a.reverse := by simp [List.reverseAux_eq]
  rw [hr1, hr2]
  exact lev_reverse (b.length + a.length) b a (by simp)

/-- The resolver DP computes the reference Levenshtein distance. -/
theorem resolver_levenshtein_distance_eq_lev (s1 s2 : List Char) :
    resolver_levenshtein_distance s1 s2 = lev s1 s2 := by
  unfold resolver_levenshtein_distance
  by_cases h : s2.length < s1.length
  · rw [if_pos h]
    exact wrCore_eq_lev s2 s1
  · rw [if_neg h]
    rw [wrCore_eq_lev s1 s2]
    exact lev_symm (s2.length + s1.length) s2 s1 (by omega)

/-- C10: the word resolver's `_levenshtein_distance` and the alias builder's
`levenshtein_distance` compute the same function: for every pair of strings
the two implementations return equal values, both equal to the reference
Levenshtein edit distance, which is zero exactly on equal strings and is
symmetric in its arguments. -/
theorem levenshtein_implementations_agree (s1 s2 : List Char) :
    resolver_levenshtein_distance s1 s2 = levenshtein_distance s1 s2 ∧
    resolver_levenshtein_distance s1 s2 = lev s1 s2 ∧
    (lev s1 s2 = 0 ↔ s1 = s2) ∧
    lev s1 s2 = lev s2 s1 := by
  refine ⟨?_, resolver_levenshtein_distance_eq_lev s1 s2, lev_eq_zero_iff s1 s2, ?_⟩
  · rw [resolver_levenshtein_distance_eq_lev, levenshtein_distance_eq_lev]
  · exact lev_symm (s1.length + s2.length) s1 s2 le_rfl

/-! # Commit engine (word-resolver-service)

Embedding of config.py `Settings`, models.py `LetterEntry` / `CommitCandidate`
/ `WordBuffer`, redis_manager.py window and buffer operations, and
commit_engine.py `CommitEngine`.  Floats are rationals, time is explicit. -/

/-- The engine-relevant fields of config.py `Settings` together with the
hard-coded commit threshold from `CommitEngine.__init__`. -/
structure EngineConfig where
  window_duration_ms : ℚ
  stability_duration_ms : ℚ
  pause_duration_ms : ℚ
  max_consecutive_same : ℕ
  min_confidence : ℚ
  commit_min_confidence : ℚ
deriving DecidableEq

/-- config.py defaults: 300 ms window, 200 ms stability, 2000 ms pause,
R_max = 1, θ_vote = 0.3; plus θ_commit = 0.4 from `CommitEngine.__init__`. -/
def settings : EngineConfig :=
  { window_duration_ms := 300
    stability_duration_ms := 200
    pause_duration_ms := 2000
    max_consecutive_same := 1
    min_confidence := 3/10
    commit_min_confidence := 2/5 }

/-- models.py `LetterEntry`. -/
structure LetterEntry where
  char : Char
  confidence : ℚ
  timestamp : ℚ
deriving DecidableEq

/-- models.py `WordBuffer` (mutable parts). -/
structure WordBuffer where
  letters : List Char
  last_commit_time : Option ℚ
deriving DecidableEq

/-- Per-session Redis state: the sliding-window list and the word buffer. -/
structure SessionState where
  window : List LetterEntry
  buffer : WordBuffer
deriving DecidableEq

/-- models.py `CommitCandidate`. -/
structure CommitCandidate where
  char : Char
  aggregate_confidence : ℚ
  first_seen : ℚ
  last_seen : ℚ
  count : ℕ
deriving DecidableEq

/-- models.py `CommitCandidate.stability_duration_ms`. -/
def CommitCandidate.stability_duration_ms (c : CommitCandidate) : ℚ :=
  (c.last_seen - c.first_seen) * 1000

/-- redis_manager.py `prune_window`: repeatedly pops the leftmost entry while
its timestamp is below the cutoff, stopping at the first newer entry. -/
def prune_window (w : List LetterEntry) (cutoff : ℚ) : List LetterEntry :=
  w.dropWhile (fun e => decide (e.timestamp < cutoff))

/-- One per-character aggregate of `CommitEngine._find_top_candidate`. -/
structure CharAgg where
  total_confidence : ℚ
  count : ℕ
  first_seen : ℚ
  last_seen : ℚ
deriving DecidableEq

/-- Initial aggregate for a character's first (filtered) entry. -/
def aggInit (e : LetterEntry) : CharAgg :=
  { total_confidence := e.confidence
    count := 1
    first_seen := e.timestamp
    last_seen := e.timestamp }

/-- Folding one more entry of the same character into an aggregate. -/
def aggAdd (a : CharAgg) (e : LetterEntry) : CharAgg :=
  { total_confidence := a.total_confidence + e.confidence
    count := a.count + 1
    first_seen := min a.first_seen e.timestamp
    last_seen := max a.last_seen e.timestamp }

/-- First-match association lookup (Python dict access). -/
def assocFind : List (Char × CharAgg) → Char → Option CharAgg
  | [], _ => none
  | (k, v) :: rest, c => if k = c then some v else assocFind rest c

/-- One iteration of the `char_data` dict update in
`CommitEngine._find_top_candidate`: insertion-ordered, update in place. -/
def updateCharData : List (Char × CharAgg) → LetterEntry → List (Char × CharAgg)
  | [], e => [(e.char, aggInit e)]
  | (k, v) :: rest, e =>
      if k = e.char then (k, aggAdd v e) :: rest
      else (k, v) :: updateCharData rest e

/-- The full `char_data` dict built over the filtered window. -/
def buildCharData (valid : List LetterEntry) : List (Char × CharAgg) :=
  valid.foldl updateCharData []

/-- Python's `max(..., key=f)`: returns the first element attaining the
maximum (a later element replaces the current best only when strictly
greater). -/
def pyMax {α : Type} (f : α → ℚ) : List α → Option α
  | [] => none
  | x :: xs => some (xs.foldl (fun best y => if f best < f y then y else best) x)

/-- Embedding of `CommitEngine._find_top_candidate`: filter by θ_vote, aggregate per
character, pick the character with maximal Σconf. -/
def find_top_candidate (cfg : EngineConfig) (window : List LetterEntry) :
    Option CommitCandidate :=
  let valid := window.filter (fun e => decide (cfg.min_confidence ≤ e.confidence))
  if valid.isEmpty then none
  else
    match pyMax (fun p => p.2.total_confidence) (buildCharData valid) with
    | none => none
    | some p =>
        some { char := p.1
               aggregate_confidence := p.2.total_confidence
               first_seen := p.2.first_seen
               last_seen := p.2.last_seen
               count := p.2.count }

/-- Embedding of `CommitEngine.process_letter`: push the new observation, prune the
window, vote, then apply the confidence, stability and anti-repetition
gates; on success append to the word buffer and stamp the commit time.
Returns the updated session state and the committed character, if any. -/
def process_letter (cfg : EngineConfig) (s : SessionState) (char : Char)
    (confidence timestamp now : ℚ) : SessionState × Option Char :=
  let window1 := s.window ++ [{ char := char, confidence := confidence, timestamp := timestamp }]
  let cutoff := now - cfg.window_duration_ms / 1000
  let window2 := prune_window window1 cutoff
  let s1 : SessionState := { window := window2, buffer := s.buffer }
  if window2.isEmpty then (s1, none)
  else
    match find_top_candidate cfg window2 with
    | none => (s1, none)
    | some cand =>
        let avg := cand.aggregate_confidence / (cand.count : ℚ)
        if avg < cfg.commit_min_confidence then (s1, none)
        else if cand.stability_duration_ms < cfg.stability_duration_ms then (s1, none)
        else if cfg.max_consecutive_same ≤ s.buffer.letters.length ∧
            ∀ c ∈ s.buffer.letters.drop (s.buffer.letters.length - cfg.max_consecutive_same),
              c = cand.char then (s1, none)
        else
          ({ window := window2
             buffer := { letters := s.buffer.letters ++ [cand.char]
                         last_commit_time := some now } }, some cand.char)

/-- Embedding of `CommitEngine.check_pause`: a word is ready for finalization when the
buffer is non-empty and at least `pause_duration_ms` elapsed since the last
commit. -/
def check_pause (cfg : EngineConfig) (s : SessionState) (now : ℚ) : Bool :=
  if s.buffer.letters.isEmpty then false
  else
    match s.buffer.last_commit_time with
    | none => false
    | some t => decide (cfg.pause_duration_ms ≤ (now - t) * 1000)

/-! ## Mathematical aggregates over the filtered window (specification side) -/

/-- Entries of the window that pass the θ_vote filter. -/
def voteEntries (cfg : EngineConfig) (w : List LetterEntry) : List LetterEntry :=
  w.filter (fun e => decide (cfg.min_confidence ≤ e.confidence))

/-- Entries of a given character. -/
def charEntries (c : Char) (es : List LetterEntry) : List LetterEntry :=
  es.filter (fun e => decide (e.char = c))

/-- Sum of confidences of a character's entries. -/
def sumConf (c : Char) (es : List LetterEntry) : ℚ :=
  ((charEntries c es).map (fun e => e.confidence)).sum

/-- Number of a character's entries. -/
def countChar (c : Char) (es : List LetterEntry) : ℕ :=
  (charEntries c es).length

/-- Timestamps of a character's entries. -/
def charTimestamps (c : Char) (es : List LetterEntry) : List ℚ :=
  (charEntries c es).map (fun e => e.timestamp)

/-- Minimum of a list of rationals (`none` on the empty list). -/
def listMin : List ℚ → Option ℚ
  | [] => none
  | t :: ts => some (ts.foldl min t)

/-- Maximum of a list of rationals (`none` on the empty list). -/
def listMax : List ℚ → Option ℚ
  | [] => none
  | t :: ts => some (ts.foldl max t)

theorem listMin_concat (l : List ℚ) (t : ℚ) :
    listMin (l ++ [t]) = some (match listMin l with
      | none => t
      | some m => min m t) := by
  cases l with
  | nil => simp [listMin]
  | cons x xs => simp [listMin, List.foldl_append]

theorem listMax_concat (l : List ℚ) (t : ℚ) :
    listMax (l ++ [t]) = some (match listMax l with
      | none => t
      | some m => max m t) := by
  cases l with
  | nil => simp [listMax]
  | cons x xs => simp [listMax, List.foldl_append]

/-- Per-character projection of one dict-update step. -/
def aggStep (c : Char) (acc : Option CharAgg) (e : LetterEntry) : Option CharAgg :=
  if e.char = c then
    some (match acc with
      | none => aggInit e
      | some a => aggAdd a e)
  else acc

/-- Per-character aggregate over a list of entries. -/
def aggSpec (c : Char) (es : List LetterEntry) : Option CharAgg :=
  es.foldl (aggStep c) none

theorem assocFind_updateCharData (m : List (Char × CharAgg)) (e : LetterEntry) (c : Char) :
    assocFind (updateCharData m e) c = aggStep c (assocFind m c) e := by
  induction m with
  | nil =>
      by_cases h : e.char = c <;> simp [updateCharData, assocFind, aggStep, h]
  | cons p rest ih =>
      obtain ⟨k, v⟩ := p
      by_cases hk : k = e.char
      · subst hk
        rw [updateCharData, if_pos rfl]
        by_cases hc : e.char = c
        · subst hc
          rw [assocFind, if_pos rfl, assocFind, if_pos rfl]
          simp [aggStep]
        · rw [assocFind, if_neg hc, assocFind, if_neg hc]
          simp only [aggStep, if_neg hc]
      · rw [updateCharData, if_neg hk]
        by_cases hc : k = c
        · subst hc
          rw [assocFind, if_pos rfl, assocFind, if_pos rfl]
          have hne : ¬ e.char = k := fun hh => hk hh.symm
          simp only [aggStep]
          rw [if_neg hne]
        · rw [assocFind, if_neg hc, assocFind, if_neg hc, ih]

theorem assocFind_foldl (es : List LetterEntry) :
    ∀ (m : List (Char × CharAgg)) (c : Char),
      assocFind (es.foldl updateCharData m) c = es.foldl (aggStep c) (assocFind m c) := by
  induction es with
  | nil => intro m c; rfl
  | cons e es ih =>
      intro m c
      rw [List.foldl_cons, List.foldl_cons, ih, assocFind_updateCharData]

theorem assocFind_buildCharData (es : List LetterEntry) (c : Char) :
    assocFind (buildCharData es) c = aggSpec c es := by
  unfold buildCharData aggSpec
  rw [assocFind_foldl]
  rfl

theorem aggSpec_concat (c : Char) (es : List LetterEntry) (e : LetterEntry) :
    aggSpec c (es ++ [e]) = aggStep c (aggSpec c es) e := by
  unfold aggSpec
  rw [List.foldl_append]
  rfl

theorem charEntries_concat (c : Char) (es : List LetterEntry) (e : LetterEntry) :
    charEntries c (es ++ [e]) =
      charEntries c es ++ (if e.char = c then [e] else []) := by
  unfold charEntries
  rw [List.filter_append]
  by_cases h : e.char = c <;> simp [h]

theorem aggSpec_none_iff (c : Char) (es : List LetterEntry) :
    aggSpec c es = none ↔ charEntries c es = [] := by
  induction es using List.reverseRecOn with
  | nil => simp [aggSpec, charEntries]
  | append_singleton es e ih =>
      rw [aggSpec_concat, charEntries_concat]
      by_cases h : e.char = c
      · rw [if_pos h]
        simp only [aggStep, if_pos h]
        cases aggSpec c es <;> simp
      · rw [if_neg h]
        simp only [aggStep, if_neg h]
        simpa using ih

/-- The aggregate computed by the `char_data` fold matches the mathematical
aggregates (sum, count, min and max timestamp) over the entry list. -/
theorem aggSpec_correct (c : Char) (es : List LetterEntry) (a : CharAgg) :
    aggSpec c es = some a →
      a.total_confidence = sumConf c es ∧ a.count = countChar c es ∧
      listMin (charTimestamps c es) = some a.first_seen ∧
      listMax (charTimestamps c es) = some a.last_seen := by
  induction es using List.reverseRecOn generalizing a with
  | nil => intro h; simp [aggSpec] at h
  | append_singleton es e ih =>
      intro h
      rw [aggSpec_concat] at h
      by_cases hc : e.char = c
      · simp only [aggStep, if_pos hc] at h
        have hchar : charEntries c (es ++ [e]) = charEntries c es ++ [e] := by
          rw [charEntries_concat, if_pos hc]
        have hts : charTimestamps c (es ++ [e]) = charTimestamps c es ++ [e.timestamp] := by
          unfold charTimestamps
          rw [hchar, List.map_append]; rfl
        have hsum : sumConf c (es ++ [e]) = sumConf c es + e.confidence := by
          unfold sumConf
          rw [hchar, List.map_append, List.sum_append]; simp
        have hcount : countChar c (es ++ [e]) = countChar c es + 1 := by
          unfold countChar
          rw [hchar, List.length_append]; rfl
        cases hAs : aggSpec c es with
        | none =>
            rw [hAs] at h
            have ha : a = aggInit e := by
              injection h with h'; exact h'.symm
            subst ha
            have hce : charEntries c es = [] := (aggSpec_none_iff c es).mp hAs
            have hts0 : charTimestamps c es = [] := by
              unfold charTimestamps; rw [hce]; rfl
            have hsum0 : sumConf c es = 0 := by
              unfold sumConf; rw [hce]; rfl
            have hcount0 : countChar c es = 0 := by
              unfold countChar; rw [hce]; rfl
            refine ⟨?_, ?_, ?_, ?_⟩
            · rw [hsum, hsum0]; simp [aggInit]
            · rw [hcount, hcount0]; rfl
            · rw [hts, hts0]; simp [listMin, aggInit]
            · rw [hts, hts0]; simp [listMax, aggInit]
        | some a' =>
            rw [hAs] at h
            have ha : a = aggAdd a' e := by
              injection h with h'; exact h'.symm
            subst ha
            obtain ⟨ih1, ih2, ih3, ih4⟩ := ih a' hAs
            refine ⟨?_, ?_, ?_, ?_⟩
            · rw [hsum, ← ih1]; rfl
            · rw [hcount, ← ih2]; rfl
            · rw [hts, listMin_concat, ih3]; rfl
            · rw [hts, listMax_concat, ih4]; rfl
      · simp only [aggStep, if_neg hc] at h
        have hchar : charEntries c (es ++ [e]) = charEntries c es := by
          rw [charEntries_concat, if_neg hc, List.append_nil]
        obtain ⟨ih1, ih2, ih3, ih4⟩ := ih a h
        have h1 : sumConf c (es ++ [e]) = sumConf c es := by
          unfold sumConf; rw [hchar]
        have h2 : countChar c (es ++ [e]) = countChar c es := by
          unfold countChar; rw [hchar]
        have h3 : charTimestamps c (es ++ [e]) = charTimestamps c es := by
          unfold charTimestamps; rw [hchar]
        rw [h1, h2, h3]
        exact ⟨ih1, ih2, ih3, ih4⟩

/-! ## Python `max` semantics and dict key order -/

/-- The fold inside `pyMax` selects the earliest element attaining the
maximum: the list splits around the result, with strictly smaller values
before it and no larger values after it. -/
theorem pyMaxFold_split {α : Type} (f : α → ℚ) :
    ∀ (xs : List α) (b : α),
      ∃ l₁ l₂, b :: xs = l₁ ++ (xs.foldl (fun best y => if f best < f y then y else best) b) :: l₂ ∧
        (∀ y ∈ l₁, f y < f (xs.foldl (fun best y => if f best < f y then y else best) b)) ∧
        (∀ y ∈ l₂, f y ≤ f (xs.foldl (fun best y => if f best < f y then y else best) b)) := by
  intro xs
  induction xs with
  | nil =>
      intro b
      exact ⟨[], [], rfl, by simp, by simp⟩
  | cons z rest ih =>
      intro b
      rw [List.foldl_cons]
      by_cases hz : f b < f z
      · rw [if_pos hz]
        obtain ⟨l₁, l₂, hsplit, hlt, hle⟩ := ih z
        refine ⟨b :: l₁, l₂, by rw [List.cons_append, ← hsplit], ?_, hle⟩
        intro y hy
        rcases List.mem_cons.mp hy with hy | hy
        · subst hy
          have hzr : f z ≤ f (rest.foldl (fun best y => if f best < f y then y else best) z) := by
            cases l₁ with
            | nil =>
                have : z = rest.foldl (fun best y => if f best < f y then y else best) z := by
                  have := hsplit
                  simp at this
                  exact this.1
                rw [← this]
            | cons w l₁' =>
                have hz1 : z = w := by
                  have := hsplit
                  simp at this
                  exact this.1
                subst hz1
                exact le_of_lt (hlt z (by simp))
          exact lt_of_lt_of_le hz hzr
        · exact hlt y hy
      · rw [if_neg hz]
        obtain ⟨l₁, l₂, hsplit, hlt, hle⟩ := ih b
        cases l₁ with
        | nil =>
            simp only [List.nil_append] at hsplit
            have hb : b = rest.foldl (fun best y => if f best < f y then y else best) b := by
              have := hsplit
              simp at this
              exact this.1
            have hrest : rest = l₂ := by
              have := hsplit
              simp at this
              exact this.2
            refine ⟨[], z :: rest, ?_, by simp, ?_⟩
            · simp only [List.nil_append]
              rw [← hb]
            · intro y hy
              rcases List.mem_cons.mp hy with hy | hy
              · subst hy
                rw [← hb]
                exact le_of_not_lt hz
              · rw [hrest] at hy
                exact hle y hy
        | cons w l₁' =>
            have hbw : b = w ∧ rest = l₁' ++ (rest.foldl (fun best y => if f best < f y then y else best) b) :: l₂ := by
              have := hsplit
              simp at this
              exact ⟨this.1, this.2⟩
            obtain ⟨hbw1, hbw2⟩ := hbw
            rw [← hbw1] at hlt
            refine ⟨b :: z :: l₁', l₂, ?_, ?_, hle⟩
            · rw [List.cons_append, List.cons_append, ← hbw2]
            · intro y hy
              have hbmax : f b < f (rest.foldl (fun best y => if f best < f y then y else best) b) :=
                hlt b (by simp)
              rcases List.mem_cons.mp hy with hy | hy
              · subst hy
                exact hbmax
              · rcases List.mem_cons.mp hy with hy | hy
                · subst hy
                  exact lt_of_le_of_lt (le_of_not_lt hz) hbmax
                · exact hlt y (by simp [hy])

/-- Lemma: `pyMax` splits its input around the selected element. -/
theorem pyMax_split {α : Type} (f : α → ℚ) (l : List α) (r : α) :
    pyMax f l = some r →
      ∃ l₁ l₂, l = l₁ ++ r :: l₂ ∧ (∀ y ∈ l₁, f y < f r) ∧ (∀ y ∈ l₂, f y ≤ f r) := by
  cases l with
  | nil => intro h; simp [pyMax] at h
  | cons x xs =>
      intro h
      have hr : xs.foldl (fun best y => if f best < f y then y else best) x = r := by
        simpa [pyMax] using h
      obtain ⟨l₁, l₂, hsplit, hlt, hle⟩ := pyMaxFold_split f xs x
      rw [hr] at hsplit hlt hle
      exact ⟨l₁, l₂, hsplit, hlt, hle⟩

/-- Lemma: `pyMax` returns an element of the list, maximal for `f`. -/
theorem pyMax_mem_max {α : Type} (f : α → ℚ) (l : List α) (r : α) :
    pyMax f l = some r → r ∈ l ∧ ∀ y ∈ l, f y ≤ f r := by
  intro h
  obtain ⟨l₁, l₂, hsplit, hlt, hle⟩ := pyMax_split f l r h
  subst hsplit
  constructor
  · simp
  · intro y hy
    rcases List.mem_append.mp hy with hy | hy
    · exact le_of_lt (hlt y hy)
    · rcases List.mem_cons.mp hy with hy | hy
      · subst hy; exact le_rfl
      · exact hle y hy

/-- Characters of a list of entries in order of first appearance, skipping
those already seen (`ks`). -/
def seenKeys (ks : List Char) : List LetterEntry → List Char
  | [] => []
  | e :: es => if e.char ∈ ks then seenKeys ks es else e.char :: seenKeys (e.char :: ks) es

theorem seenKeys_congr :
    ∀ (es : List LetterEntry) (ks ks' : List Char),
      (∀ c, c ∈ ks ↔ c ∈ ks') → seenKeys ks es = seenKeys ks' es := by
  intro es
  induction es with
  | nil => intro ks ks' _; rfl
  | cons e es ih =>
      intro ks ks' hiff
      by_cases h : e.char ∈ ks
      · rw [seenKeys, if_pos h, seenKeys, if_pos ((hiff e.char).mp h), ih ks ks' hiff]
      · rw [seenKeys, if_neg h, seenKeys, if_neg (fun hh => h ((hiff e.char).mpr hh))]
        congr 1
        apply ih
        intro c
        simp [hiff c]

theorem assocFind_eq_none_iff :
    ∀ (m : List (Char × CharAgg)) (c : Char),
      assocFind m c = none ↔ c ∉ m.map Prod.fst := by
  intro m
  induction m with
  | nil => intro c; simp [assocFind]
  | cons p rest ih =>
      intro c
      obtain ⟨k, v⟩ := p
      by_cases h : k = c
      · subst h
        simp [assocFind, ih]
      · rw [assocFind, if_neg h, ih c, List.map_cons]
        have hne : ¬ c = k := fun hh => h hh.symm
        simp [hne]

theorem updateCharData_keys (m : List (Char × CharAgg)) (e : LetterEntry) :
    (updateCharData m e).map Prod.fst =
      if e.char ∈ m.map Prod.fst then m.map Prod.fst else m.map Prod.fst ++ [e.char] := by
  induction m with
  | nil => simp [updateCharData]
  | cons p rest ih =>
      obtain ⟨k, v⟩ := p
      by_cases hk : k = e.char
      · subst hk
        rw [updateCharData, if_pos rfl]
        simp
      · rw [updateCharData, if_neg hk]
        have hne : ¬ e.char = k := fun hh => hk hh.symm
        by_cases hm : e.char ∈ rest.map Prod.fst
        · rw [List.map_cons, ih, if_pos hm, List.map_cons,
            if_pos (by simp [hm])]
        · rw [List.map_cons, ih, if_neg hm, List.map_cons,
            if_neg (by simp [hne, hm]), List.cons_append]

theorem foldl_updateCharData_keys :
    ∀ (es : List LetterEntry) (m : List (Char × CharAgg)),
      (es.foldl updateCharData m).map Prod.fst =
        m.map Prod.fst ++ seenKeys (m.map Prod.fst) es := by
  intro es
  induction es with
  | nil => intro m; simp [seenKeys]
  | cons e es ih =>
      intro m
      rw [List.foldl_cons, ih, updateCharData_keys]
      by_cases h : e.char ∈ m.map Prod.fst
      · rw [if_pos h, seenKeys, if_pos h]
      · rw [if_neg h, seenKeys, if_neg h]
        rw [seenKeys_congr es (m.map Prod.fst ++ [e.char]) (e.char :: m.map Prod.fst)
          (by intro c; simp [or_comm])]
        simp

theorem buildCharData_keys (es : List LetterEntry) :
    (buildCharData es).map Prod.fst = seenKeys [] es := by
  unfold buildCharData
  rw [foldl_updateCharData_keys]
  rfl

theorem seenKeys_not_in_base :
    ∀ (es : List LetterEntry) (ks : List Char) (c : Char),
      c ∈ seenKeys ks es → c ∉ ks ∧ c ∈ es.map LetterEntry.char := by
  intro es
  induction es with
  | nil => intro ks c h; simp [seenKeys] at h
  | cons e es ih =>
      intro ks c h
      by_cases he : e.char ∈ ks
      · rw [seenKeys, if_pos he] at h
        obtain ⟨h1, h2⟩ := ih ks c h
        exact ⟨h1, by simp [h2]⟩
      · rw [seenKeys, if_neg he] at h
        rcases List.mem_cons.mp h with h | h
        · subst h
          exact ⟨he, by simp⟩
        · obtain ⟨h1, h2⟩ := ih (e.char :: ks) c h
          exact ⟨fun hc => h1 (by simp [hc]), by simp [h2]⟩

theorem seenKeys_covers :
    ∀ (es : List LetterEntry) (ks : List Char) (c : Char),
      c ∈ es.map LetterEntry.char → c ∈ ks ∨ c ∈ seenKeys ks es := by
  intro es
  induction es with
  | nil => intro ks c h; simp at h
  | cons e es ih =>
      intro ks c h
      rw [List.map_cons] at h
      rcases List.mem_cons.mp h with h | h
      · subst h
        by_cases he : e.char ∈ ks
        · exact Or.inl he
        · rw [seenKeys, if_neg he]
          exact Or.inr (List.mem_cons_self _ _)
      · by_cases he : e.char ∈ ks
        · rw [seenKeys, if_pos he]
          exact ih ks c h
        · rw [seenKeys, if_neg he]
          rcases ih (e.char :: ks) c h with hk | hk
          · rcases List.mem_cons.mp hk with hk | hk
            · subst hk; exact Or.inr (List.mem_cons_self _ _)
            · exact Or.inl hk
          · exact Or.inr (List.mem_cons_of_mem _ hk)

theorem seenKeys_nodup :
    ∀ (es : List LetterEntry) (ks : List Char), (seenKeys ks es).Nodup := by
  intro es
  induction es with
  | nil => intro ks; simp [seenKeys]
  | cons e es ih =>
      intro ks
      by_cases he : e.char ∈ ks
      · rw [seenKeys, if_pos he]; exact ih ks
      · rw [seenKeys, if_neg he]
        refine List.nodup_cons.mpr ⟨?_, ih (e.char :: ks)⟩
        intro hmem
        exact (seenKeys_not_in_base es (e.char :: ks) e.char hmem).1 (by simp)

theorem seenKeys_append :
    ∀ (u : List LetterEntry) (w : List LetterEntry) (ks : List Char),
      seenKeys ks (u ++ w) =
        seenKeys ks u ++ seenKeys (u.map LetterEntry.char ++ ks) w := by
  intro u
  induction u with
  | nil =>
      intro w ks
      simp [seenKeys]
  | cons e u' ih =>
      intro w ks
      by_cases he : e.char ∈ ks
      · rw [List.cons_append, seenKeys, if_pos he, seenKeys, if_pos he, ih w ks]
        congr 1
        apply seenKeys_congr
        intro c
        simp only [List.map_cons, List.mem_append, List.mem_cons]
        constructor
        · intro hc; tauto
        · rintro (hc | hc)
          · rcases hc with hc | hc
            · subst hc; exact Or.inr he
            · exact Or.inl hc
          · exact Or.inr hc
      · rw [List.cons_append, seenKeys, if_neg he, seenKeys, if_neg he, ih w (e.char :: ks),
          List.cons_append]
        congr 2
        apply seenKeys_congr
        intro c
        simp only [List.map_cons, List.mem_append, List.mem_cons]
        tauto

theorem assocFind_some_mem :
    ∀ (m : List (Char × CharAgg)) (c : Char) (a : CharAgg),
      assocFind m c = some a → (c, a) ∈ m := by
  intro m
  induction m with
  | nil => intro c a h; simp [assocFind] at h
  | cons p rest ih =>
      intro c a h
      obtain ⟨k, v⟩ := p
      by_cases hk : k = c
      · subst hk
        rw [assocFind, if_pos rfl] at h
        injection h with h
        subst h
        exact List.mem_cons_self _ _
      · rw [assocFind, if_neg hk] at h
        exact List.mem_cons_of_mem _ (ih c a h)

theorem assocFind_of_mem_nodup :
    ∀ (m : List (Char × CharAgg)) (c : Char) (a : CharAgg),
      (m.map Prod.fst).Nodup → (c, a) ∈ m → assocFind m c = some a := by
  intro m
  induction m with
  | nil => intro c a _ h; simp at h
  | cons p rest ih =>
      intro c a hnd h
      obtain ⟨k, v⟩ := p
      rw [List.map_cons, List.nodup_cons] at hnd
      rcases List.mem_cons.mp h with h | h
      · injection h with h1 h2
        subst h1; subst h2
        rw [assocFind, if_pos rfl]
      · have hkc : ¬ k = c := by
          intro hkc
          subst hkc
          exact hnd.1 (List.mem_map.mpr ⟨(k, a), h, rfl⟩)
        rw [assocFind, if_neg hkc]
        exact ih c a hnd.2 h

/-- Splitting a list at the first occurrence of a character. -/
theorem first_occurrence_split :
    ∀ (es : List LetterEntry) (c : Char), c ∈ es.map LetterEntry.char →
      ∃ u e v, es = u ++ e :: v ∧ e.char = c ∧ c ∉ u.map LetterEntry.char := by
  intro es
  induction es with
  | nil => intro c h; simp at h
  | cons e es ih =>
      intro c h
      by_cases hc : e.char = c
      · exact ⟨[], e, es, by simp, hc, by simp⟩
      · rw [List.map_cons] at h
        rcases List.mem_cons.mp h with h | h
        · exact absurd h.symm hc
        · obtain ⟨u, e', v, h1, h2, h3⟩ := ih c h
          refine ⟨e :: u, e', v, by rw [h1, List.cons_append], h2, ?_⟩
          rw [List.map_cons]
          intro hmem
          rcases List.mem_cons.mp hmem with hmem | hmem
          · exact hc hmem.symm
          · exact h3 hmem

/-- A list with no duplicates splits uniquely around an element. -/
theorem nodup_split_unique :
    ∀ (a c : List Char) (x : Char) (b d : List Char),
      a ++ x :: b = c ++ x :: d → x ∉ a → x ∉ c → a = c ∧ b = d := by
  intro a
  induction a with
  | nil =>
      intro c x b d heq _ hxc
      cases c with
      | nil => simp at heq; exact ⟨rfl, heq⟩
      | cons c0 cs =>
          simp at heq
          exact absurd (by simp [heq.1]) hxc
  | cons a0 as ih =>
      intro c x b d heq hxa hxc
      cases c with
      | nil =>
          simp at heq
          exact absurd (by simp [heq.1]) hxa
      | cons c0 cs =>
          simp at heq
          obtain ⟨h1, h2⟩ := heq
          have hxas : x ∉ as := fun hh => hxa (List.mem_cons_of_mem _ hh)
          have hxcs : x ∉ cs := fun hh => hxc (List.mem_cons_of_mem _ hh)
          obtain ⟨h3, h4⟩ := ih cs x b d h2 hxas hxcs
          exact ⟨by rw [h1, h3], h4⟩

/-- Central specification of `CommitEngine._find_top_candidate`: the returned
candidate's statistics are the mathematical aggregates of its character over
the θ_vote-filtered window; its Σconf is maximal among all characters present;
and among the characters tying for maximal Σconf it is the one appearing
first in the filtered window. -/
theorem find_top_candidate_spec (cfg : EngineConfig) (window : List LetterEntry)
    (cand : CommitCandidate) :
    find_top_candidate cfg window = some cand →
      countChar cand.char (voteEntries cfg window) ≠ 0 ∧
      cand.aggregate_confidence = sumConf cand.char (voteEntries cfg window) ∧
      cand.count = countChar cand.char (voteEntries cfg window) ∧
      listMin (charTimestamps cand.char (voteEntries cfg window)) = some cand.first_seen ∧
      listMax (charTimestamps cand.char (voteEntries cfg window)) = some cand.last_seen ∧
      (∀ d, countChar d (voteEntries cfg window) ≠ 0 →
        sumConf d (voteEntries cfg window) ≤ sumConf cand.char (voteEntries cfg window)) ∧
      (∃ u e v, voteEntries cfg window = u ++ e :: v ∧ e.char = cand.char ∧
        ∀ a ∈ u, sumConf a.char (voteEntries cfg window) <
          sumConf cand.char (voteEntries cfg window)) := by
  intro h
  unfold find_top_candidate at h
  set valid := window.filter (fun e => decide (cfg.min_confidence ≤ e.confidence)) with hvalid
  have hvv : voteEntries cfg window = valid := rfl
  rw [hvv]
  by_cases hemp : valid.isEmpty
  · rw [if_pos hemp] at h; exact absurd h (by simp)
  · rw [if_neg hemp] at h
    cases hpm : pyMax (fun p => p.2.total_confidence) (buildCharData valid) with
    | none => rw [hpm] at h; exact absurd h (by simp)
    | some p =>
        rw [hpm] at h
        injection h with h
        subst h
        obtain ⟨hmem, hmax⟩ := pyMax_mem_max _ _ _ hpm
        have hnodup : ((buildCharData valid).map Prod.fst).Nodup := by
          rw [buildCharData_keys]
          exact seenKeys_nodup valid []
        have hfind : assocFind (buildCharData valid) p.1 = some p.2 := by
          apply assocFind_of_mem_nodup _ _ _ hnodup
          exact hmem
        have hagg : aggSpec p.1 valid = some p.2 := by
          rw [← assocFind_buildCharData]
          exact hfind
        obtain ⟨ha1, ha2, ha3, ha4⟩ := aggSpec_correct p.1 valid p.2 hagg
        have hcount : countChar p.1 valid ≠ 0 := by
          intro h0
          have : charEntries p.1 valid = [] := List.length_eq_zero.mp h0
          have : aggSpec p.1 valid = none := (aggSpec_none_iff _ _).mpr this
          rw [hagg] at this
          exact absurd this (by simp)
        refine ⟨hcount, ha1, ha2, ha3, ha4, ?_, ?_⟩
        · intro d hd
          have hdne : aggSpec d valid ≠ none := by
            intro h0
            have := (aggSpec_none_iff d valid).mp h0
            unfold countChar at hd
            rw [this] at hd
            exact hd rfl
          cases hda : aggSpec d valid with
          | none => exact absurd hda hdne
          | some ad =>
              have hfd : assocFind (buildCharData valid) d = some ad := by
                rw [assocFind_buildCharData]; exact hda
              have hmemd : (d, ad) ∈ buildCharData valid := assocFind_some_mem _ _ _ hfd
              have := hmax (d, ad) hmemd
              obtain ⟨hd1, _, _, _⟩ := aggSpec_correct d valid ad hda
              rw [← hd1, ← ha1]
              exact this
        · -- first-occurrence tie-breaking
          have hkeys : (buildCharData valid).map Prod.fst = seenKeys [] valid :=
            buildCharData_keys valid
          have hp1mem : p.1 ∈ valid.map LetterEntry.char := by
            have : p.1 ∈ (buildCharData valid).map Prod.fst :=
              List.mem_map.mpr ⟨p, hmem, rfl⟩
            rw [hkeys] at this
            exact (seenKeys_not_in_base valid [] p.1 this).2
          obtain ⟨u, e, v, hsplit, hechar, hnotu⟩ := first_occurrence_split valid p.1 hp1mem
          refine ⟨u, e, v, hsplit, hechar, ?_⟩
          intro a hau
          -- keys decomposition from the pyMax split
          obtain ⟨m₁, m₂, hmsplit, hmlt, _⟩ := pyMax_split _ _ _ hpm
          have hkeys2 : seenKeys [] valid = m₁.map Prod.fst ++ p.1 :: m₂.map Prod.fst := by
            rw [← hkeys, hmsplit]
            simp
          have hkeys3 : seenKeys [] valid =
              seenKeys [] u ++ p.1 :: seenKeys (p.1 :: u.map LetterEntry.char) v := by
            rw [hsplit, seenKeys_append]
            congr 1
            rw [seenKeys]
            rw [hechar]
            rw [if_neg (by simpa using hnotu)]
            congr 1
            apply seenKeys_congr
            intro c
            simp [hechar]
          have hndk : (seenKeys [] valid).Nodup := seenKeys_nodup valid []
          have hp1nm₁ : p.1 ∉ m₁.map Prod.fst := by
            intro hmem1
            rw [hkeys2] at hndk
            have := List.Nodup.not_mem (List.Nodup.sublist (by
              exact (List.sublist_append_right _ _)) hndk)
            exact absurd hmem1 (by
              have h2 := List.disjoint_of_nodup_append hndk
              exact fun _ => (h2 hmem1) (List.mem_cons_self _ _))
          have hp1nu : p.1 ∉ seenKeys [] u := by
            intro hmemu
            exact hnotu (seenKeys_not_in_base u [] p.1 hmemu).2
          have huniq : m₁.map Prod.fst = seenKeys [] u := by
            have := nodup_split_unique (m₁.map Prod.fst) (seenKeys [] u) p.1
              (m₂.map Prod.fst) (seenKeys (p.1 :: u.map LetterEntry.char) v)
              (by rw [← hkeys2, hkeys3]) hp1nm₁ hp1nu
            exact this.1
          -- a.char lies in the strictly-smaller prefix of the key order
          have hachar : a.char ∈ seenKeys [] u := by
            rcases seenKeys_covers u [] a.char (List.mem_map.mpr ⟨a, hau, rfl⟩) with hh | hh
            · simp at hh
            · exact hh
          rw [← huniq] at hachar
          obtain ⟨q, hqm, hqfst⟩ := List.mem_map.mp hachar
          have hqin : q ∈ buildCharData valid := by
            rw [hmsplit]
            exact List.mem_append.mpr (Or.inl hqm)
          have hqfind : assocFind (buildCharData valid) q.1 = some q.2 :=
            assocFind_of_mem_nodup _ _ _ hnodup (by
              obtain ⟨q1, q2⟩ := q
              exact hqin)
          have hqagg : aggSpec q.1 valid = some q.2 := by
            rw [← assocFind_buildCharData]; exact hqfind
          obtain ⟨hq1, _, _, _⟩ := aggSpec_correct q.1 valid q.2 hqagg
          have hqlt := hmlt q hqm
          rw [hqfst] at hq1
          rw [← ha1, ← hq1]
          exact hqlt

/-- C1 (commit soundness): whenever `process_letter` with the configured
settings appends a character to the word buffer, then over the pruned window
restricted to observations with confidence ≥ 0.3 (θ_vote), the committed
character's aggregate confidence divided by its count is ≥ 0.4 (θ_commit)
and its last_seen − first_seen spans at least the configured 200 ms
stability duration. -/
theorem commit_soundness (s : SessionState) (char : Char) (conf ts now : ℚ)
    (s' : SessionState) (c : Char)
    (h : process_letter settings s char conf ts now = (s', some c)) :
    0 < countChar c (voteEntries settings s'.window) ∧
    (2 : ℚ)/5 ≤ sumConf c (voteEntries settings s'.window) /
      (countChar c (voteEntries settings s'.window) : ℚ) ∧
    ∃ f l, listMin (charTimestamps c (voteEntries settings s'.window)) = some f ∧
      listMax (charTimestamps c (voteEntries settings s'.window)) = some l ∧
      (200 : ℚ) ≤ (l - f) * 1000 := by
  unfold process_letter at h
  set window2 := prune_window
    (s.window ++ [{ char := char, confidence := conf, timestamp := ts }])
    (now - settings.window_duration_ms / 1000) with hw2
  by_cases hemp : window2.isEmpty
  · rw [if_pos hemp] at h
    simp at h
  · rw [if_neg hemp] at h
    cases hft : find_top_candidate settings window2 with
    | none => rw [hft] at h; simp at h
    | some cand =>
        rw [hft] at h
        dsimp only at h
        by_cases hg1 : cand.aggregate_confidence / (cand.count : ℚ) <
            settings.commit_min_confidence
        · rw [if_pos hg1] at h; simp at h
        · rw [if_neg hg1] at h
          by_cases hg2 : cand.stability_duration_ms < settings.stability_duration_ms
          · rw [if_pos hg2] at h; simp at h
          · rw [if_neg hg2] at h
            by_cases hg3 : settings.max_consecutive_same ≤ s.buffer.letters.length ∧
                ∀ x ∈ s.buffer.letters.drop
                  (s.buffer.letters.length - settings.max_consecutive_same),
                  x = cand.char
            · rw [if_pos hg3] at h; simp at h
            · rw [if_neg hg3] at h
              have hs' : s'.window = window2 ∧ c = cand.char := by
                have h1 := congrArg Prod.fst h
                have h2 := congrArg Prod.snd h
                simp at h1 h2
                constructor
                · rw [← h1]
                · exact h2.symm
              obtain ⟨hwin, hc⟩ := hs'
              obtain ⟨hcnt, hsum, hcount, hmin, hmax, _, _⟩ :=
                find_top_candidate_spec settings window2 cand hft
              rw [hwin, hc]
              refine ⟨Nat.pos_of_ne_zero hcnt, ?_, ?_⟩
              · rw [← hsum, ← hcount]
                have : settings.commit_min_confidence = (2 : ℚ)/5 := rfl
                rw [← this]
                exact le_of_not_lt hg1
              · obtain ⟨f, hf⟩ := Option.ne_none_iff_exists'.mp (by rw [hmin]; simp :
                  listMin (charTimestamps cand.char (voteEntries settings window2)) ≠ none)
                refine ⟨cand.first_seen, cand.last_seen, hmin, hmax, ?_⟩
                have : cand.stability_duration_ms =
                    (cand.last_seen - cand.first_seen) * 1000 := rfl
                have h200 : settings.stability_duration_ms = (200 : ℚ) := rfl
                rw [← h200]
                calc settings.stability_duration_ms ≤ cand.stability_duration_ms :=
                      le_of_not_lt hg2
                  _ = (cand.last_seen - cand.first_seen) * 1000 := rfl

/-- Witness for C1 at a concrete input: three 0.9-confidence `A` observations
spanning 250 ms commit an `A`. -/
theorem commit_soundness_witness :
    0 < countChar 'A' (voteEntries settings
      [⟨'A', 9/10, 0⟩, ⟨'A', 9/10, 1/10⟩, ⟨'A', 9/10, 1/4⟩]) ∧
    (2 : ℚ)/5 ≤ sumConf 'A' (voteEntries settings
      [⟨'A', 9/10, 0⟩, ⟨'A', 9/10, 1/10⟩, ⟨'A', 9/10, 1/4⟩]) /
      (countChar 'A' (voteEntries settings
        [⟨'A', 9/10, 0⟩, ⟨'A', 9/10, 1/10⟩, ⟨'A', 9/10, 1/4⟩]) : ℚ) ∧
    ∃ f l, listMin (charTimestamps 'A' (voteEntries settings
        [⟨'A', 9/10, 0⟩, ⟨'A', 9/10, 1/10⟩, ⟨'A', 9/10, 1/4⟩])) = some f ∧
      listMax (charTimestamps 'A' (voteEntries settings
        [⟨'A', 9/10, 0⟩, ⟨'A', 9/10, 1/10⟩, ⟨'A', 9/10, 1/4⟩])) = some l ∧
      (200 : ℚ) ≤ (l - f) * 1000 := by
  have heval : process_letter settings
      ⟨[⟨'A', 9/10, 0⟩, ⟨'A', 9/10, 1/10⟩], ⟨[], none⟩⟩ 'A' (9/10) (1/4) (1/4) =
      (⟨[⟨'A', 9/10, 0⟩, ⟨'A', 9/10, 1/10⟩, ⟨'A', 9/10, 1/4⟩], ⟨['A'], some (1/4)⟩⟩,
        some 'A') := by
    norm_num [process_letter, prune_window, find_top_candidate, buildCharData,
      updateCharData, pyMax, settings, aggInit, aggAdd, assocFind,
      CommitCandidate.stability_duration_ms, List.dropWhile_cons, List.filter,
      decide_eq_true_eq, List.isEmpty]
  exact commit_soundness _ _ _ _ _ _ _ heval

/-- C2 counterexample: in the window `[B@0 (0.5), A@1 (0.5)]` both characters
have the same maximal Σconf = 0.5 and `A`'s last_seen (1) is more recent than
`B`'s (0), yet the engine selects `B` (the first-inserted dict key), not `A`
as the most-recent-last_seen rule would require. -/
theorem candidate_tiebreak_counterexample :
    (find_top_candidate settings
        [⟨'B', 1/2, 0⟩, ⟨'A', 1/2, 1⟩]).map CommitCandidate.char = some 'B' ∧
    sumConf 'A' (voteEntries settings [⟨'B', 1/2, 0⟩, ⟨'A', 1/2, 1⟩]) =
      sumConf 'B' (voteEntries settings [⟨'B', 1/2, 0⟩, ⟨'A', 1/2, 1⟩]) ∧
    listMax (charTimestamps 'B'
      (voteEntries settings [⟨'B', 1/2, 0⟩, ⟨'A', 1/2, 1⟩])) = some 0 ∧
    listMax (charTimestamps 'A'
      (voteEntries settings [⟨'B', 1/2, 0⟩, ⟨'A', 1/2, 1⟩])) = some 1 := by
  have hba : ¬ (('B' : Char) = 'A') := by decide
  have hab : ¬ (('A' : Char) = 'B') := by decide
  refine ⟨?_, ?_, ?_, ?_⟩ <;>
    norm_num [find_top_candidate, voteEntries, sumConf, countChar, charTimestamps,
      charEntries, listMax, buildCharData, updateCharData, pyMax, settings,
      aggInit, aggAdd, assocFind, List.filter, decide_eq_true_eq, List.isEmpty,
      hba, hab]

/-- C2 amended: the engine selects a character that occurs in the
θ_vote-filtered window and whose aggregate confidence Σconf is maximal among
the characters present; when several characters tie for the maximal Σconf,
the selected one is the character whose first filtered observation occurs
earliest in the window (dict insertion order) — not the most recent
last_seen, nor the lexicographically smallest. -/
theorem candidate_selection_amended (cfg : EngineConfig) (window : List LetterEntry)
    (cand : CommitCandidate) (h : find_top_candidate cfg window = some cand) :
    countChar cand.char (voteEntries cfg window) ≠ 0 ∧
    (∀ d, countChar d (voteEntries cfg window) ≠ 0 →
      sumConf d (voteEntries cfg window) ≤ sumConf cand.char (voteEntries cfg window)) ∧
    ∃ u e v, voteEntries cfg window = u ++ e :: v ∧ e.char = cand.char ∧
      ∀ a ∈ u, sumConf a.char (voteEntries cfg window) <
        sumConf cand.char (voteEntries cfg window) := by
  obtain ⟨h1, _, _, _, _, h6, h7⟩ := find_top_candidate_spec cfg window cand h
  exact ⟨h1, h6, h7⟩

/-- Witness for the amended C2 at the counterexample window: `B` is selected,
occurs in the filtered window, and its Σconf dominates `A`'s. -/
theorem candidate_selection_amended_witness :
    countChar 'B' (voteEntries settings [⟨'B', 1/2, 0⟩, ⟨'A', 1/2, 1⟩]) ≠ 0 ∧
    sumConf 'A' (voteEntries settings [⟨'B', 1/2, 0⟩, ⟨'A', 1/2, 1⟩]) ≤
      sumConf 'B' (voteEntries settings [⟨'B', 1/2, 0⟩, ⟨'A', 1/2, 1⟩]) := by
  have hft : find_top_candidate settings [⟨'B', 1/2, 0⟩, ⟨'A', 1/2, 1⟩] =
      some ⟨'B', 1/2, 0, 0, 1⟩ := by
    have hba : ¬ (('B' : Char) = 'A') := by decide
    have hab : ¬ (('A' : Char) = 'B') := by decide
    norm_num [find_top_candidate, buildCharData, updateCharData, pyMax, settings,
      aggInit, aggAdd, assocFind, List.filter, decide_eq_true_eq, List.isEmpty, hba, hab]
  have hspec := candidate_selection_amended settings
    [⟨'B', 1/2, 0⟩, ⟨'A', 1/2, 1⟩] ⟨'B', 1/2, 0, 0, 1⟩ hft
  refine ⟨hspec.1, hspec.2.1 'A' ?_⟩
  have hba : ¬ (('B' : Char) = 'A') := by decide
  norm_num [countChar, charEntries, voteEntries, settings, List.filter,
    decide_eq_true_eq, hba]

/-- On a timestamp-sorted window, the left-pop pruning loop removes exactly
the observations older than the cutoff. -/
theorem prune_window_filter (cutoff : ℚ) :
    ∀ (w : List LetterEntry),
      w.Pairwise (fun a b => a.timestamp ≤ b.timestamp) →
      prune_window w cutoff = w.filter (fun e => decide (cutoff ≤ e.timestamp)) := by
  intro w
  induction w with
  | nil => intro _; rfl
  | cons e w' ih =>
      intro hp
      rw [List.pairwise_cons] at hp
      by_cases he : e.timestamp < cutoff
      · have h1 : prune_window (e :: w') cutoff = prune_window w' cutoff := by
          unfold prune_window
          rw [List.dropWhile_cons, if_pos (by simpa using he)]
        have h2 : ¬ (cutoff ≤ e.timestamp) := not_le.mpr he
        rw [h1, ih hp.2, List.filter_cons, if_neg (by simpa using h2)]
      · have h2 : cutoff ≤ e.timestamp := le_of_not_lt he
        have h1 : prune_window (e :: w') cutoff = e :: w' := by
          unfold prune_window
          rw [List.dropWhile_cons, if_neg (by simpa using he)]
        rw [h1, List.filter_cons, if_pos (by simpa using h2)]
        congr 1
        symm
        apply List.filter_eq_self.mpr
        intro a ha
        simp only [decide_eq_true_eq]
        exact le_trans h2 (hp.1 a ha)

/-- C7 (window bound): pruning a timestamp-sorted window of observations no
newer than `now` at cutoff `now − W_ms` removes exactly the observations
older than the cutoff, every surviving pair of observations is within
`W_ms = 300` milliseconds of each other, and every survivor is at least as
new as the cutoff. -/
theorem window_bound_after_prune (w : List LetterEntry) (now : ℚ)
    (hsorted : w.Pairwise (fun a b => a.timestamp ≤ b.timestamp))
    (hnow : ∀ e ∈ w, e.timestamp ≤ now) :
    prune_window w (now - settings.window_duration_ms / 1000) =
      w.filter (fun e => decide (now - settings.window_duration_ms / 1000 ≤ e.timestamp)) ∧
    (∀ e ∈ prune_window w (now - settings.window_duration_ms / 1000),
      now - settings.window_duration_ms / 1000 ≤ e.timestamp) ∧
    ∀ e1 ∈ prune_window w (now - settings.window_duration_ms / 1000),
      ∀ e2 ∈ prune_window w (now - settings.window_duration_ms / 1000),
        (e1.timestamp - e2.timestamp) * 1000 ≤ settings.window_duration_ms := by
  have hf := prune_window_filter (now - settings.window_duration_ms / 1000) w hsorted
  have hmemc : ∀ e ∈ prune_window w (now - settings.window_duration_ms / 1000),
      now - settings.window_duration_ms / 1000 ≤ e.timestamp := by
    intro e he
    rw [hf] at he
    have := List.of_mem_filter he
    simpa using this
  refine ⟨hf, hmemc, ?_⟩
  intro e1 h1 e2 h2
  have hc1 := hmemc e1 h1
  have hc2 := hmemc e2 h2
  have hm1 : e1 ∈ w := by
    rw [hf] at h1
    exact List.mem_of_mem_filter h1
  have hn1 : e1.timestamp ≤ now := hnow e1 hm1
  have hW : settings.window_duration_ms = (300 : ℚ) := rfl
  rw [hW] at hc2 ⊢
  nlinarith [hc2, hn1]

/-- Predicate: `l` contains `k` consecutive copies of some character. -/
def hasRun (k : ℕ) (l : List Char) : Prop :=
  ∃ c p s, l = p ++ List.replicate k c ++ s

/-- Folding a stream of prediction events `(char, conf, ts, now)` through the
commit engine. -/
def runEngine (cfg : EngineConfig) (s : SessionState) :
    List (Char × ℚ × ℚ × ℚ) → SessionState
  | [] => s
  | ev :: evs =>
      runEngine cfg (process_letter cfg s ev.1 ev.2.1 ev.2.2.1 ev.2.2.2).1 evs

/-- Each engine step either leaves the word buffer unchanged or appends one
character that failed the anti-repetition test. -/
theorem process_letter_letters_cases (cfg : EngineConfig) (s : SessionState)
    (char : Char) (conf ts now : ℚ) :
    (process_letter cfg s char conf ts now).1.buffer.letters = s.buffer.letters ∨
    ∃ c, (process_letter cfg s char conf ts now).1.buffer.letters =
        s.buffer.letters ++ [c] ∧
      ¬ (cfg.max_consecutive_same ≤ s.buffer.letters.length ∧
        ∀ x ∈ s.buffer.letters.drop (s.buffer.letters.length - cfg.max_consecutive_same),
          x = c) := by
  unfold process_letter
  set window2 := prune_window
    (s.window ++ [{ char := char, confidence := conf, timestamp := ts }])
    (now - cfg.window_duration_ms / 1000) with hw2
  by_cases hemp : window2.isEmpty
  · rw [if_pos hemp]; left; rfl
  · rw [if_neg hemp]
    cases hft : find_top_candidate cfg window2 with
    | none => left; rfl
    | some cand =>
        dsimp only
        by_cases hg1 : cand.aggregate_confidence / (cand.count : ℚ) <
            cfg.commit_min_confidence
        · rw [if_pos hg1]; left; rfl
        · rw [if_neg hg1]
          by_cases hg2 : cand.stability_duration_ms < cfg.stability_duration_ms
          · rw [if_pos hg2]; left; rfl
          · rw [if_neg hg2]
            by_cases hg3 : cfg.max_consecutive_same ≤ s.buffer.letters.length ∧
                ∀ x ∈ s.buffer.letters.drop
                  (s.buffer.letters.length - cfg.max_consecutive_same),
                  x = cand.char
            · rw [if_pos hg3]; left; rfl
            · rw [if_neg hg3]
              right
              exact ⟨cand.char, rfl, hg3⟩

/-- Appending `x` to `l` creates a `k+1`-run only if `l` already had one or
`l` ends in `k` copies of `x`. -/
theorem hasRun_concat (k : ℕ) (l : List Char) (x : Char) :
    hasRun (k + 1) (l ++ [x]) →
      hasRun (k + 1) l ∨ (k ≤ l.length ∧ l.drop (l.length - k) = List.replicate k x) := by
  rintro ⟨c, p, s, h⟩
  rcases List.eq_nil_or_concat s with hs | ⟨s', y, hs⟩
  · subst hs
    rw [List.append_nil] at h
    have hrep : List.replicate (k + 1) c = List.replicate k c ++ [c] := by
      rw [List.replicate_succ']
    rw [hrep] at h
    have h' : l.concat x = (p ++ List.replicate k c).concat c := by
      rw [List.concat_eq_append, List.concat_eq_append, List.append_assoc]
      exact h
    obtain ⟨h1, h2⟩ := List.concat_inj.mp h'
    subst h2
    right
    constructor
    · have := congrArg List.length h1
      simp at this
      omega
    · have hlen : l.length - k = p.length := by
        have := congrArg List.length h1
        simp at this
        omega
      rw [hlen, h1, List.drop_left]
  · subst hs
    rw [List.concat_eq_append] at h
    have h' : l.concat x = ((p ++ List.replicate (k + 1) c) ++ s').concat y := by
      rw [List.concat_eq_append, List.concat_eq_append, List.append_assoc]
      exact h
    obtain ⟨h1, _⟩ := List.concat_inj.mp h'
    left
    exact ⟨c, p, s', by rw [h1, List.append_assoc]⟩

/-- C5 (anti-repetition): (a) when the last `R_max` committed letters all
equal the engine's top candidate, `process_letter` commits nothing and leaves
the buffer unchanged; (b) consequently, running the engine from any buffer
free of `R_max+1`-runs never produces `R_max+1` consecutive equal characters
in the word buffer — in particular no finalized word contains them. -/
theorem anti_repetition (cfg : EngineConfig) :
    (∀ (s : SessionState) (char : Char) (conf ts now : ℚ) (cand : CommitCandidate),
      find_top_candidate cfg (prune_window
          (s.window ++ [{ char := char, confidence := conf, timestamp := ts }])
          (now - cfg.window_duration_ms / 1000)) = some cand →
      cfg.max_consecutive_same ≤ s.buffer.letters.length →
      (∀ x ∈ s.buffer.letters.drop
          (s.buffer.letters.length - cfg.max_consecutive_same), x = cand.char) →
      (process_letter cfg s char conf ts now).2 = none ∧
      (process_letter cfg s char conf ts now).1.buffer = s.buffer) ∧
    (∀ (s : SessionState) (events : List (Char × ℚ × ℚ × ℚ)),
      ¬ hasRun (cfg.max_consecutive_same + 1) s.buffer.letters →
      ¬ hasRun (cfg.max_consecutive_same + 1) (runEngine cfg s events).buffer.letters) := by
  constructor
  · intro s char conf ts now cand hft hlen hall
    unfold process_letter
    set window2 := prune_window
      (s.window ++ [{ char := char, confidence := conf, timestamp := ts }])
      (now - cfg.window_duration_ms / 1000) with hw2
    by_cases hemp : window2.isEmpty
    · rw [if_pos hemp]; exact ⟨rfl, rfl⟩
    · rw [if_neg hemp, hft]
      dsimp only
      by_cases hg1 : cand.aggregate_confidence / (cand.count : ℚ) <
          cfg.commit_min_confidence
      · rw [if_pos hg1]; exact ⟨rfl, rfl⟩
      · rw [if_neg hg1]
        by_cases hg2 : cand.stability_duration_ms < cfg.stability_duration_ms
        · rw [if_pos hg2]; exact ⟨rfl, rfl⟩
        · rw [if_neg hg2]
          rw [if_pos ⟨hlen, hall⟩]
          exact ⟨rfl, rfl⟩
  · intro s events
    induction events generalizing s with
    | nil => intro h; exact h
    | cons ev evs ih =>
        intro h
        rw [runEngine]
        apply ih
        rcases process_letter_letters_cases cfg s ev.1 ev.2.1 ev.2.2.1 ev.2.2.2 with
          hc | ⟨c, hc, hcond⟩
        · rw [hc]; exact h
        · rw [hc]
          intro hrun
          rcases hasRun_concat _ _ _ hrun with hrun | ⟨hlen, hdrop⟩
          · exact h hrun
          · apply hcond
            refine ⟨hlen, ?_⟩
            intro x hx
            rw [hdrop] at hx
            exact List.eq_of_mem_replicate hx

/-- Witness for C5: with one committed `A` and `R_max = 1`, a second stable
`A` is rejected and the buffer is unchanged; and the engine run from an empty
buffer never creates a 2-run. -/
theorem anti_repetition_witness :
    ((process_letter settings ⟨[⟨'A', 9/10, 0⟩, ⟨'A', 9/10, 1/10⟩], ⟨['A'], some 0⟩⟩
        'A' (9/10) (1/4) (1/4)).2 = none ∧
      (process_letter settings ⟨[⟨'A', 9/10, 0⟩, ⟨'A', 9/10, 1/10⟩], ⟨['A'], some 0⟩⟩
        'A' (9/10) (1/4) (1/4)).1.buffer = ⟨['A'], some 0⟩) ∧
    ¬ hasRun (settings.max_consecutive_same + 1)
      (runEngine settings ⟨[], ⟨[], none⟩⟩ [('A', 9/10, 0, 0)]).buffer.letters := by
  constructor
  · have hft : find_top_candidate settings (prune_window
        ([⟨'A', 9/10, 0⟩, ⟨'A', 9/10, 1/10⟩] ++
          [{ char := 'A', confidence := 9/10, timestamp := 1/4 }])
        ((1:ℚ)/4 - settings.window_duration_ms / 1000)) =
        some ⟨'A', 27/10, 0, 1/4, 3⟩ := by
      norm_num [find_top_candidate, prune_window, buildCharData, updateCharData,
        pyMax, settings, aggInit, aggAdd, assocFind, List.filter,
        List.dropWhile_cons, decide_eq_true_eq, List.isEmpty]
    exact (anti_repetition settings).1
      ⟨[⟨'A', 9/10, 0⟩, ⟨'A', 9/10, 1/10⟩], ⟨['A'], some 0⟩⟩
      'A' (9/10) (1/4) (1/4) ⟨'A', 27/10, 0, 1/4, 3⟩ hft (by decide)
      (by intro x hx; simpa [settings] using hx)
  · apply (anti_repetition settings).2
    rintro ⟨c, p, s, h⟩
    simp at h

/-- Witness for C7 on a concrete sorted window. -/
theorem window_bound_after_prune_witness :
    prune_window [⟨'A', 1, 0⟩, ⟨'B', 1, 1/10⟩]
        ((1:ℚ)/10 - settings.window_duration_ms / 1000) =
      List.filter (fun e => decide ((1:ℚ)/10 - settings.window_duration_ms / 1000 ≤
        e.timestamp)) [⟨'A', 1, 0⟩, ⟨'B', 1, 1/10⟩] := by
  have hs : ([⟨'A', 1, 0⟩, ⟨'B', 1, 1/10⟩] : List LetterEntry).Pairwise
      (fun a b => a.timestamp ≤ b.timestamp) := by
    norm_num [List.pairwise_cons]
  have hn : ∀ e ∈ ([⟨'A', 1, 0⟩, ⟨'B', 1, 1/10⟩] : List LetterEntry),
      e.timestamp ≤ (1:ℚ)/10 := by
    intro e he
    rcases List.mem_cons.mp he with he | he
    · subst he; norm_num
    · simp at he
      subst he
      norm_num
  exact (window_bound_after_prune [⟨'A', 1, 0⟩, ⟨'B', 1, 1/10⟩] (1/10) hs hn).1

/-! # Word resolver (word_resolver.py client-side ranking) -/

/-- Strip all spaces and hyphens (`.replace(' ', '').replace('-', '')`). -/
def stripSH (l : List Char) : List Char :=
  l.filter (fun c => decide (¬ (c = ' ' ∨ c = '-')))

/-- Uppercase every character (`.upper()`). -/
def toUpperL (l : List Char) : List Char := l.map Char.toUpper

/-- Python `startswith` on character lists. -/
def isPrefixL : List Char → List Char → Bool
  | [], _ => true
  | _ :: _, [] => false
  | a :: as, b :: bs => a == b && isPrefixL as bs

/-- Python's substring test `needle in hay`. -/
def containsSub (needle : List Char) : List Char → Bool
  | [] => needle.isEmpty
  | c :: t => isPrefixL needle (c :: t) || containsSub needle t

/-- Comparison `d < best_distance` where `best_distance` may still be `float('inf')`. -/
def ltOptB (d : ℕ) : Option ℕ → Bool
  | none => true
  | some b => decide (d < b)

/-- Loop body of `WordResolver._find_best_matching_alias`. -/
def findBestHelper (qU : List Char) :
    List (List Char) → Option (List Char) → Option ℕ → Option (List Char)
  | [], best, _ => best
  | a :: rest, best, bestDist =>
      let aU := stripSH (toUpperL a)
      if aU = qU then some a
      else if isPrefixL qU aU || containsSub qU aU then
        let d := ((aU.length : ℤ) - (qU.length : ℤ)).natAbs
        if ltOptB d bestDist then findBestHelper qU rest (some a) (some d)
        else findBestHelper qU rest best bestDist
      else
        let d := resolver_levenshtein_distance aU qU
        if d ≤ 2 && ltOptB d bestDist then findBestHelper qU rest (some a) (some d)
        else findBestHelper qU rest best bestDist

/-- Embedding of `WordResolver._find_best_matching_alias`. -/
def find_best_matching_alias (query : List Char) (aliases : List (List Char)) :
    Option (List Char) :=
  if aliases.isEmpty then none
  else findBestHelper (stripSH (toUpperL query)) aliases none none

/-- models.py `SearchResult`. -/
structure SearchResult where
  surface : List Char
  atlas_score : ℚ
  alias_confidence : ℚ
  hybrid_score : ℚ
  matched_via : Option (List Char)
deriving DecidableEq

/-- One candidate document returned by the Atlas search, with its opaque
search score. -/
structure StoreResult where
  surface : List Char
  aliases : List (List Char)
  confidence_scores : List (List Char × ℚ)
  score : ℚ
deriving DecidableEq

/-- models.py `ResolvedWord` (dynamic parts). -/
structure ResolvedWord where
  session_id : List Char
  user_id : List Char
  raw_word : List Char
  all_results : List SearchResult
  search_method : List Char
deriving DecidableEq

/-- Association lookup in `confidence_scores` (`dict.get(k, 0.0)`). -/
def assocFindQ : List (List Char × ℚ) → List Char → Option ℚ
  | [], _ => none
  | (k, v) :: rest, c => if k = c then some v else assocFindQ rest c

/-- Python expression: matched alias falling back to the surface, after
`_atlas_fuzzy_search` stored the best matching alias. -/
def matchedAliasOf (query : List Char) (r : StoreResult) : List Char :=
  match find_best_matching_alias query r.aliases with
  | none => r.surface
  | some a => if a.isEmpty then r.surface else a

/-- Embedding of `WordResolver.resolve_word` restricted to its pure ranking part: given
the raw word and the list of Atlas candidates, compute `matched_alias`,
`alias_confidence` and the hybrid score per candidate, then stable-sort by
hybrid score descending (Python's `list.sort` is stable). -/
def resolve_word (session_id user_id raw_word : List Char)
    (results : List StoreResult) (search_method : List Char) : ResolvedWord :=
  if raw_word.isEmpty then
    { session_id := session_id, user_id := user_id, raw_word := []
      all_results := [], search_method := search_method }
  else if results.isEmpty then
    { session_id := session_id, user_id := user_id, raw_word := raw_word
      all_results := [], search_method := search_method }
  else
    let scored := results.map (fun r =>
      let matched := matchedAliasOf raw_word r
      let ac := (assocFindQ r.confidence_scores matched).getD 0
      { surface := r.surface
        atlas_score := r.score
        alias_confidence := ac
        hybrid_score := r.score * (7/10) + ac * (3/10)
        matched_via := some matched : SearchResult })
    { session_id := session_id, user_id := user_id, raw_word := raw_word
      all_results := scored.mergeSort (fun x y => decide (y.hybrid_score ≤ x.hybrid_score))
      search_method := search_method }

/-- C3 amended: with a non-empty raw word and a non-empty candidate list,
`resolve_word` keeps one SearchResult per store candidate (no truncation to
five), each with `hybrid_score = 0.7·atlas_score + 0.3·alias_confidence`,
sorted by hybrid score descending (Python's stable sort keeps the store
order on ties); with no candidates `all_results` is empty. -/
theorem resolve_word_ranking (session_id user_id raw_word search_method : List Char)
    (results : List StoreResult)
    (hraw : raw_word ≠ []) (hres : results ≠ []) :
    (resolve_word session_id user_id raw_word results search_method).all_results.length =
      results.length ∧
    List.Pairwise (fun a b : SearchResult => b.hybrid_score ≤ a.hybrid_score)
      (resolve_word session_id user_id raw_word results search_method).all_results ∧
    (∀ r ∈ (resolve_word session_id user_id raw_word results search_method).all_results,
      r.hybrid_score = r.atlas_score * (7/10) + r.alias_confidence * (3/10)) ∧
    (resolve_word session_id user_id raw_word [] search_method).all_results = [] := by
  have hraw' : ¬ raw_word.isEmpty := by
    cases raw_word with
    | nil => exact absurd rfl hraw
    | cons a l => simp
  have hres' : ¬ results.isEmpty := by
    cases results with
    | nil => exact absurd rfl hres
    | cons a l => simp
  have hlast : (resolve_word session_id user_id raw_word [] search_method).all_results = [] := by
    unfold resolve_word
    by_cases h : raw_word.isEmpty
    · rw [if_pos h]
    · rw [if_neg h, if_pos (by rfl)]
  unfold resolve_word
  rw [if_neg hraw', if_neg hres']
  dsimp only
  set scored := results.map (fun r =>
    let matched := matchedAliasOf raw_word r
    let ac := (assocFindQ r.confidence_scores matched).getD 0
    { surface := r.surface
      atlas_score := r.score
      alias_confidence := ac
      hybrid_score := r.score * (7/10) + ac * (3/10)
      matched_via := some matched : SearchResult }) with hscored
  have hperm := List.mergeSort_perm scored
    (fun x y => decide (y.hybrid_score ≤ x.hybrid_score))
  refine ⟨?_, ?_, ?_, hlast⟩
  · rw [hperm.length_eq, hscored, List.length_map]
  · have hsorted := @List.sorted_mergeSort SearchResult
      (fun x y : SearchResult => decide (y.hybrid_score ≤ x.hybrid_score))
      (fun a b c hab hbc => by
        simp only [decide_eq_true_eq] at hab hbc ⊢
        exact le_trans hbc hab)
      (fun a b => by
        simp only [Bool.or_eq_true, decide_eq_true_eq]
        exact le_total b.hybrid_score a.hybrid_score)
      scored
    exact hsorted.imp (by
      intro a b hab
      simpa using hab)
  · intro r hr
    have hrs : r ∈ scored := hperm.mem_iff.mp hr
    rw [hscored] at hrs
    obtain ⟨q, _, hq⟩ := List.mem_map.mp hrs
    rw [← hq]

/-- C3 counterexample: six candidates with equal hybrid scores 0.7 and
surfaces in descending order. `all_results` keeps all six entries (no top-5
truncation) in store order (ties are not re-ordered by surface ascending). -/
theorem resolver_ranking_counterexample :
    (resolve_word [] [] ['A', 'W', 'S']
        [⟨['F'], [], [], 1⟩, ⟨['E'], [], [], 1⟩, ⟨['D'], [], [], 1⟩,
          ⟨['C'], [], [], 1⟩, ⟨['B'], [], [], 1⟩, ⟨['A'], [], [], 1⟩]
        ['f']).all_results.length = 6 ∧
    ((resolve_word [] [] ['A', 'W', 'S']
        [⟨['F'], [], [], 1⟩, ⟨['E'], [], [], 1⟩, ⟨['D'], [], [], 1⟩,
          ⟨['C'], [], [], 1⟩, ⟨['B'], [], [], 1⟩, ⟨['A'], [], [], 1⟩]
        ['f']).all_results.map SearchResult.surface) =
      [['F'], ['E'], ['D'], ['C'], ['B'], ['A']] ∧
    ((resolve_word [] [] ['A', 'W', 'S']
        [⟨['F'], [], [], 1⟩, ⟨['E'], [], [], 1⟩, ⟨['D'], [], [], 1⟩,
          ⟨['C'], [], [], 1⟩, ⟨['B'], [], [], 1⟩, ⟨['A'], [], [], 1⟩]
        ['f']).all_results.map SearchResult.hybrid_score) =
      [7/10, 7/10, 7/10, 7/10, 7/10, 7/10] := by
  have hall : (resolve_word [] [] ['A', 'W', 'S']
      [⟨['F'], [], [], 1⟩, ⟨['E'], [], [], 1⟩, ⟨['D'], [], [], 1⟩,
        ⟨['C'], [], [], 1⟩, ⟨['B'], [], [], 1⟩, ⟨['A'], [], [], 1⟩]
      ['f']).all_results =
      [⟨['F'], 1, 0, 7/10, some ['F']⟩, ⟨['E'], 1, 0, 7/10, some ['E']⟩,
        ⟨['D'], 1, 0, 7/10, some ['D']⟩, ⟨['C'], 1, 0, 7/10, some ['C']⟩,
        ⟨['B'], 1, 0, 7/10, some ['B']⟩, ⟨['A'], 1, 0, 7/10, some ['A']⟩] := by
    unfold resolve_word
    rw [if_neg (by simp), if_neg (by simp)]
    dsimp only
    have hsc : ([⟨['F'], [], [], 1⟩, ⟨['E'], [], [], 1⟩, ⟨['D'], [], [], 1⟩,
        ⟨['C'], [], [], 1⟩, ⟨['B'], [], [], 1⟩, ⟨['A'], [], [], 1⟩] :
          List StoreResult).map (fun r =>
        let matched := matchedAliasOf ['A', 'W', 'S'] r
        let ac := (assocFindQ r.confidence_scores matched).getD 0
        { surface := r.surface
          atlas_score := r.score
          alias_confidence := ac
          hybrid_score := r.score * (7/10) + ac * (3/10)
          matched_via := some matched : SearchResult }) =
        [⟨['F'], 1, 0, 7/10, some ['F']⟩, ⟨['E'], 1, 0, 7/10, some ['E']⟩,
          ⟨['D'], 1, 0, 7/10, some ['D']⟩, ⟨['C'], 1, 0, 7/10, some ['C']⟩,
          ⟨['B'], 1, 0, 7/10, some ['B']⟩, ⟨['A'], 1, 0, 7/10, some ['A']⟩] := by
      norm_num [matchedAliasOf, find_best_matching_alias, assocFindQ, List.isEmpty]
    rw [hsc]
    rw [List.mergeSort_of_sorted]
    norm_num [List.pairwise_cons]
  rw [hall]
  norm_num

/-- Witness for the amended C3 on a one-candidate query. -/
theorem resolve_word_ranking_witness :
    (resolve_word [] [] ['A'] [⟨['A'], [], [], 1⟩] []).all_results.length = 1 :=
  (resolve_word_ranking [] [] ['A'] [] [⟨['A'], [], [], 1⟩]
    (by simp) (by simp)).1

/-! # Word finalization (kinesis_consumer.py) -/

/-- Embedding of `KinesisConsumer._finalize_word`: re-read the buffer, return silently if
it is empty, otherwise resolve the raw word and clear both the word buffer
and the sliding window. -/
def finalize_word (s : SessionState) (store : List StoreResult)
    (session_id user_id search_method : List Char) :
    SessionState × Option ResolvedWord :=
  if s.buffer.letters.isEmpty then (s, none)
  else
    ({ window := [], buffer := { letters := [], last_commit_time := none } },
      some (resolve_word session_id user_id s.buffer.letters store search_method))

/-- The consumer's finalization path: `_finalize_word` runs only after
`check_pause` returns `True` (both in `process_record` and in the 1 Hz
`_check_all_sessions_for_pause` sweep). -/
def finalize_if_paused (cfg : EngineConfig) (s : SessionState) (now : ℚ)
    (store : List StoreResult) (session_id user_id search_method : List Char) :
    SessionState × Option ResolvedWord :=
  if check_pause cfg s now then finalize_word s store session_id user_id search_method
  else (s, none)

theorem resolve_word_raw_word (session_id user_id raw_word search_method : List Char)
    (results : List StoreResult) (h : ¬ raw_word.isEmpty) :
    (resolve_word session_id user_id raw_word results search_method).raw_word =
      raw_word := by
  unfold resolve_word
  rw [if_neg h]
  by_cases hres : results.isEmpty
  · rw [if_pos hres]
  · rw [if_neg hres]

/-- C6 (finalization atomicity): whenever the consumer's finalization path
emits a `ResolvedWord` — which requires a non-empty buffer and at least
`pause_duration_ms` (2000 ms) since the last commit — the session's sliding
window and word buffer are empty in the returned state, and the emitted word
carries the buffered letters as its raw word. -/
theorem finalization_atomicity (cfg : EngineConfig) (s : SessionState) (now : ℚ)
    (store : List StoreResult) (session_id user_id search_method : List Char)
    (s' : SessionState) (rw : ResolvedWord)
    (h : finalize_if_paused cfg s now store session_id user_id search_method =
      (s', some rw)) :
    s'.window = [] ∧ s'.buffer.letters = [] ∧ s'.buffer.last_commit_time = none ∧
    s.buffer.letters ≠ [] ∧
    (∃ t, s.buffer.last_commit_time = some t ∧
      cfg.pause_duration_ms ≤ (now - t) * 1000) ∧
    rw.raw_word = s.buffer.letters := by
  unfold finalize_if_paused at h
  by_cases hp : check_pause cfg s now
  · rw [if_pos hp] at h
    unfold check_pause at hp
    by_cases hemp : s.buffer.letters.isEmpty
    · rw [if_pos hemp] at hp; simp at hp
    · rw [if_neg hemp] at hp
      cases hlc : s.buffer.last_commit_time with
      | none => rw [hlc] at hp; simp at hp
      | some t =>
          rw [hlc] at hp
          simp only [decide_eq_true_eq] at hp
          unfold finalize_word at h
          rw [if_neg hemp] at h
          have h1 := congrArg Prod.fst h
          have h2 := congrArg Prod.snd h
          simp only at h1 h2
          have hrw : rw = resolve_word session_id user_id s.buffer.letters store
              search_method := by
            injection h2.symm
          refine ⟨by rw [← h1], by rw [← h1], by rw [← h1], ?_, ⟨t, rfl, hp⟩, ?_⟩
          · intro h0
            rw [h0] at hemp
            exact hemp rfl
          · rw [hrw]
            exact resolve_word_raw_word _ _ _ _ _ hemp
  · rw [if_neg hp] at h
    simp at h

/-- Witness for C6: finalizing `AWS` with a 3 s pause empties the session
state and echoes the buffered letters. -/
theorem finalization_atomicity_witness :
    (resolve_word [] [] ['A', 'W', 'S'] [] []).raw_word = ['A', 'W', 'S'] := by
  have heval : finalize_if_paused settings
      ⟨[⟨'A', 1, 0⟩], ⟨['A', 'W', 'S'], some 0⟩⟩ 3 [] [] [] [] =
      (⟨[], ⟨[], none⟩⟩, some (resolve_word [] [] ['A', 'W', 'S'] [] [])) := by
    norm_num [finalize_if_paused, check_pause, finalize_word, settings, List.isEmpty]
  exact (finalization_atomicity settings _ 3 [] [] [] [] _ _ heval).2.2.2.2.2

/-! # Ingress handler (iac/lambda/ingress_handler.py) -/

/-- One record written to the landmarks stream. -/
structure KinesisRecord where
  session_id : List Char
  connection_id : List Char
  landmarks : List ℚ
deriving DecidableEq

/-- Embedding of `handle_landmarks` for a JSON-parsed payload: use the connection id when
no session id is present, reject only when `data` is missing or empty
(Python truthiness), otherwise update the registry and enqueue one record.
Returns the status code and the enqueued record, if any. -/
def handle_landmarks (connection_id : List Char) (session_id : Option (List Char))
    (data : List ℚ) : ℕ × Option KinesisRecord :=
  let sid := session_id.getD connection_id
  if data.isEmpty then (400, none)
  else (200, some { session_id := sid, connection_id := connection_id, landmarks := data })

/-- C4 counterexample: a payload with `data = [1]` — length 1 ≠ 1662 — is
acknowledged with 200 and enqueued, not rejected. -/
theorem ingress_validation_counterexample :
    (handle_landmarks ['c'] none [1]).1 = 200 ∧
    (handle_landmarks ['c'] none [1]).2 = some ⟨['c'], ['c'], [1]⟩ ∧
    ([(1 : ℚ)] : List ℚ).length ≠ 1662 := by
  refine ⟨rfl, rfl, by norm_num⟩

/-- C4 amended: `handle_landmarks` rejects with 400 and enqueues nothing
exactly when the `data` list is empty or missing; any non-empty `data` —
regardless of its length or values — is enqueued with a 200
acknowledgement. -/
theorem ingress_validation_amended (connection_id : List Char)
    (session_id : Option (List Char)) (data : List ℚ) :
    (data = [] → handle_landmarks connection_id session_id data = (400, none)) ∧
    (data ≠ [] →
      (handle_landmarks connection_id session_id data).1 = 200 ∧
      (handle_landmarks connection_id session_id data).2 =
        some { session_id := session_id.getD connection_id
               connection_id := connection_id
               landmarks := data }) := by
  constructor
  · intro h
    subst h
    rfl
  · intro h
    have h' : ¬ data.isEmpty := by
      cases data with
      | nil => exact absurd rfl h
      | cons a l => simp
    unfold handle_landmarks
    rw [if_neg h']
    exact ⟨rfl, rfl⟩

/-- Witness for the amended C4 at empty and singleton payloads. -/
theorem ingress_validation_amended_witness :
    handle_landmarks ['c'] none [] = (400, none) ∧
    (handle_landmarks ['c'] none [2]).1 = 200 := by
  refine ⟨(ingress_validation_amended ['c'] none []).1 rfl, ?_⟩
  exact ((ingress_validation_amended ['c'] none [2]).2 (by simp)).1


/-! # Alias validation (iac/lambda/kb-aliases/lambda_function.py) -/

/-- The ASL confusion matrix (37×37 counts; indices 0–9 digits,
10–35 letters A–Z, 36 the pause symbol). -/
def CONFUSION_MATRIX : List (List ℕ) := [
  [434,12,1,0,1,1,0,2,0,0,2,0,9,2,2,0,0,0,0,2,0,0,0,3,8,1,0,0,0,4,0,0,0,1,1,0,20],
  [2,681,19,0,0,0,3,2,0,0,18,2,0,48,1,0,1,0,2,0,3,0,0,7,2,1,0,1,3,10,0,0,1,7,1,0,3],
  [5,129,542,11,0,3,11,3,2,1,6,2,1,9,2,0,1,0,1,0,25,3,0,4,2,0,0,0,7,10,8,40,0,0,1,0,1],
  [5,20,8,1100,3,12,0,2,2,3,3,0,1,8,0,0,0,0,0,0,7,9,0,0,0,0,1,0,0,2,0,2,0,0,0,0,5],
  [4,1,1,2,1272,23,0,1,0,1,0,10,0,1,1,1,0,0,0,0,0,0,0,2,0,0,0,0,0,0,0,0,1,0,0,0,3],
  [1,1,0,2,19,1862,0,1,4,2,1,1,0,1,0,0,0,0,0,1,2,0,0,0,0,0,1,0,0,0,0,1,1,0,0,0,0],
  [7,13,24,2,7,10,680,9,8,0,7,0,5,1,1,0,0,0,0,0,1,0,0,0,0,0,0,0,0,2,3,5,44,3,1,1,2],
  [9,10,5,2,40,7,7,1018,9,3,12,0,7,0,0,0,0,0,8,0,1,0,0,1,3,0,0,0,0,3,0,4,0,0,0,0,6],
  [4,3,1,2,26,13,4,25,1049,21,2,1,0,0,1,0,0,0,2,0,0,0,0,1,6,0,0,0,0,4,0,0,0,0,1,1,1],
  [5,3,1,2,3,12,1,1,1,1138,0,1,1,0,0,22,0,0,0,0,7,0,0,0,1,0,0,0,0,1,0,0,0,0,0,0,0],
  [3,19,2,3,1,2,0,5,0,2,954,7,3,3,0,0,0,0,1,0,8,0,0,0,0,0,0,0,0,5,0,0,0,2,0,0,0],
  [0,0,0,0,0,0,0,0,0,0,0,1772,0,0,0,0,0,0,0,0,0,0,0,0,0,0,0,0,0,0,0,0,0,0,0,0,0],
  [10,0,0,0,0,0,0,0,0,0,0,0,1685,0,0,0,0,0,0,0,0,0,0,0,0,0,0,0,0,0,0,0,0,0,0,2,16],
  [0,21,1,0,0,0,0,0,0,0,0,0,0,1746,0,0,0,0,0,0,0,0,0,2,0,0,0,0,0,1,0,1,0,0,0,0,0],
  [1,1,0,0,0,0,0,0,0,0,2,0,0,0,63,0,0,0,0,0,0,0,0,1,2,0,1,0,0,5,0,0,0,0,0,0,0],
  [0,0,0,0,0,0,0,0,0,31,0,10,0,0,0,1740,0,0,0,0,0,0,0,0,0,0,0,0,0,0,0,0,0,0,0,0,0],
  [1,1,0,0,0,0,0,0,0,0,0,0,0,0,0,0,1762,3,0,0,0,0,0,0,0,1,0,0,0,0,0,0,0,0,0,2,0],
  [0,0,0,0,0,0,0,0,0,0,0,0,0,1,0,0,0,1770,0,0,0,0,0,0,0,0,0,0,0,0,0,0,0,0,1,1,3],
  [0,0,0,0,0,0,0,0,0,0,0,0,0,1,0,0,0,0,1700,4,0,0,0,0,0,0,0,0,0,0,0,0,0,0,0,0,0],
  [4,2,0,0,1,0,0,2,0,0,1,0,0,0,0,0,2,0,4,1360,0,0,0,1,0,1,0,0,0,3,0,0,0,1,0,2,4],
  [0,1,2,0,0,3,0,1,0,0,1,0,0,0,0,0,0,0,0,0,1670,0,0,1,0,0,0,0,0,0,0,0,0,0,0,0,0],
  [0,0,0,0,0,0,0,0,0,0,0,0,0,0,0,0,0,0,0,0,0,1547,0,0,0,0,0,0,0,0,0,0,0,0,0,0,0],
  [6,0,0,0,0,0,0,0,0,0,0,0,1,1,3,0,0,0,0,0,0,0,16,3,0,0,0,0,0,1,0,0,0,0,0,1,2],
  [2,2,0,0,0,0,0,0,0,0,1,0,0,0,2,0,0,0,0,0,1,0,5,1509,0,0,0,0,2,1,0,0,0,0,0,0,0],
  [79,2,0,0,0,0,0,0,2,0,1,0,0,3,0,0,0,0,0,0,0,0,0,0,36,0,0,0,1,1,0,0,0,0,0,0,0],
  [0,0,1,0,0,0,0,0,0,0,0,0,0,0,0,0,0,0,0,0,0,0,0,0,0,1760,0,0,0,1,0,0,0,0,0,1,0],
  [1,0,0,0,0,0,0,0,0,0,0,0,0,0,0,0,0,0,0,0,0,0,0,0,0,0,1761,0,1,4,0,0,0,0,0,0,0],
  [0,2,1,0,0,0,0,0,0,0,0,0,0,4,0,0,0,0,0,0,4,0,0,0,0,0,0,852,0,0,12,5,0,0,0,0,0],
  [9,12,0,0,0,0,0,1,0,0,4,0,6,2,3,0,0,0,0,0,0,0,0,12,10,0,3,0,19,6,0,0,0,0,0,0,1],
  [4,11,0,0,0,3,0,1,1,1,10,0,0,2,1,0,0,0,0,0,1,0,0,3,3,0,1,0,0,394,0,0,0,1,1,0,0],
  [0,0,0,0,0,0,0,0,0,0,0,0,0,0,0,0,0,0,0,0,0,0,0,0,0,0,0,0,0,0,1553,0,0,0,0,0,0],
  [0,0,14,0,0,0,0,2,0,0,0,0,0,12,0,0,0,0,0,0,2,0,0,0,0,0,0,2,0,0,6,852,1,0,0,0,0],
  [0,0,0,0,0,0,8,0,0,9,0,0,0,0,0,0,0,0,0,0,0,0,0,0,0,0,0,0,0,0,0,0,1738,0,0,0,0],
  [1,0,0,0,0,0,0,0,0,0,0,0,1,0,0,0,0,0,0,0,0,0,0,1,0,0,0,1,0,0,0,0,0,1765,0,0,1],
  [3,6,3,0,0,3,0,2,3,2,15,0,0,0,3,0,0,0,0,0,3,0,0,0,1,0,0,0,0,4,0,0,0,1,97,0,5],
  [2,2,0,0,0,0,0,0,0,0,0,0,0,0,0,0,1,1,0,0,0,0,0,0,0,1,1,0,0,0,0,0,0,0,1,1499,16],
  [1,1,0,0,0,0,0,0,0,0,0,0,0,0,0,0,0,0,0,0,0,0,0,0,0,0,0,0,0,0,0,0,0,0,0,1,881]]

/-- Curated set of empirically known confusion pairs. -/
def KNOWN_CONFUSION_PAIRS : List (Char × Char) := [
  ('W', '6'), ('6', 'W'), ('W', '3'), ('3', 'W'), ('V', '2'), ('2', 'V'), ('F', '9'), ('9', 'F'), ('D', '1'), ('1', 'D'), ('O', '0'), ('0', 'O'), ('A', 'T'), ('T', 'A'), ('A', 'E'), ('E', 'A'), ('E', 'S'), ('S', 'E'), ('E', 'T'), ('T', 'E'), ('E', 'N'), ('N', 'E'), ('E', 'M'), ('M', 'E'), ('T', 'M'), ('M', 'T'), ('S', 'N'), ('N', 'S'), ('S', 'T'), ('T', 'S'), ('N', 'M'), ('M', 'N'), ('H', 'U'), ('U', 'H'), ('H', 'V'), ('V', 'H'), ('H', '7'), ('7', 'H'), ('R', 'U'), ('U', 'R'), ('R', 'V'), ('V', 'R'), ('U', 'V'), ('V', 'U'), ('U', '7'), ('7', 'U'), ('V', '7'), ('7', 'V'), ('C', 'O'), ('O', 'C'), ('C', '0'), ('0', 'C'), ('J', 'Z'), ('Z', 'J'), ('J', 'I'), ('I', 'J'), ('Z', '1'), ('1', 'Z')]

/-- Embedding of `char_to_idx`: digit → its value, letter → 10..35, underscore → 36,
anything else → −1 (ASCII alphabet). -/
def char_to_idx (c : Char) : ℤ :=
  if c.isDigit then ((c.toNat : ℤ) - ('0'.toNat : ℤ))
  else if c.isAlpha then ((c.toUpper.toNat : ℤ) - ('A'.toNat : ℤ)) + 10
  else if c = '_' then 36 else -1

/-- Embedding of `is_known_confusion`. -/
def is_known_confusion (c1 c2 : Char) : Bool :=
  decide ((c1.toUpper, c2.toUpper) ∈ KNOWN_CONFUSION_PAIRS)

/-- Embedding of `get_confusion_prob`: row-normalized confusion count. -/
def get_confusion_prob (c1 c2 : Char) : ℚ :=
  let idx1 := char_to_idx c1
  let idx2 := char_to_idx c2
  if idx1 = -1 ∨ idx2 = -1 then 0
  else
    let row := CONFUSION_MATRIX.getD idx1.toNat []
    let count := row.getD idx2.toNat 0
    let total := row.sum
    if 0 < total then (count : ℚ) / (total : ℚ) else 0

/-- Python whitespace (the `\s` class and `str.strip` characters). -/
def isPyWS (c : Char) : Bool :=
  c == ' ' || c == '\t' || c == '\n' || c == '\r' || c == '\x0B' || c == '\x0C'

/-- Python `str.strip()`: drop leading and trailing whitespace. -/
def trimWS (l : List Char) : List Char :=
  ((l.dropWhile isPyWS).reverse.dropWhile isPyWS).reverse

/-- One character of the `[A-Z0-9\-\s]` class. -/
def allowedAliasChar (c : Char) : Bool :=
  (decide ('A' ≤ c) && decide (c ≤ 'Z')) || c.isDigit || c == '-' || isPyWS c

/-- The anchored regex `[A-Z0-9\-\s]{2,40}` as a predicate. -/
def regexOk (l : List Char) : Bool :=
  decide (2 ≤ l.length) && decide (l.length ≤ 40) && l.all allowedAliasChar

/-- Embedding of `confusion_weighted_edit_distance`: 1.0 per aligned match, else the
row-normalized confusion probability (floored at 0.4 for known confusions
with matrix probability < 0.3), normalized by the stripped surface length. -/
def confusion_weighted_edit_distance (surface al : List Char) : ℚ :=
  let surface_clean := stripSH surface
  let alias_clean := stripSH al
  let edit_dist := levenshtein_distance surface_clean alias_clean
  if 2 < edit_dist then 0
  else
    let score := (surface_clean.zip alias_clean).foldl (fun sc p =>
      if p.1 = p.2 then sc + 1
      else
        let conf_prob := get_confusion_prob p.1 p.2
        sc + (if conf_prob < 3/10 ∧ is_known_confusion p.1 p.2 = true then
          max conf_prob (2/5) else conf_prob)) 0
    let max_score := (surface_clean.length : ℚ)
    if 0 < max_score then score / max_score else 0

/-- Embedding of `validate_alias`: uppercase and trim both strings, check length, the
character-class regex, the stripped edit distance, and the
confusion-weighted score threshold; return the decision and the score. -/
def validate_alias (surface al : List Char) : Bool × ℚ :=
  let alias1 := trimWS (toUpperL al)
  let surface1 := trimWS (toUpperL surface)
  if alias1.length < 2 ∨ 40 < alias1.length then (false, 0)
  else if ¬ (regexOk alias1 = true) then (false, 0)
  else
    let clean_alias := stripSH alias1
    let clean_surface := stripSH surface1
    if 2 < levenshtein_distance clean_surface clean_alias then (false, 0)
    else
      let score := confusion_weighted_edit_distance surface1 alias1
      if score < 1/2 then (false, score) else (true, score)

/-! # Hand extraction and landmark preprocessing (letter-model-service) -/

/-- Handedness of the single active hand. -/
inductive Handedness where
  | left : Handedness
  | right : Handedness
deriving DecidableEq

/-- Result record of `LetterASLService.extract_hand_from_holistic`. -/
structure HandExtraction where
  hand_landmarks : Option (List (ℚ × ℚ))
  handedness : Option Handedness
  multi_hand : Bool
  skip_inference : Bool
deriving DecidableEq

/-- A hand block is active when some coordinate exceeds 0.01 in magnitude. -/
def isActive (block : List ℚ) : Bool :=
  block.any (fun v => decide ((1 : ℚ)/100 < |v|))

/-- Regroup the 63 hand values into 21 `(x, y)` points, dropping `z`
(`for i in range(0, len(hand_data), 3)`). -/
def toXY : List ℚ → List (ℚ × ℚ)
  | x :: y :: _ :: rest => (x, y) :: toXY rest
  | x :: y :: [] => [(x, y)]
  | _ => []

/-- Embedding of `extract_hand_from_holistic`: slice the two 63-value hand blocks at
offsets 1536 and 1599, apply the multi-hand / no-hand policy, and keep the
(x, y) coordinates of the single active hand (right hand wins). -/
def extract_hand_from_holistic (h : List ℚ) : HandExtraction :=
  let left_hand_data := (h.drop 1536).take 63
  let right_hand_data := (h.drop 1599).take 63
  if isActive left_hand_data && isActive right_hand_data then
    { hand_landmarks := none, handedness := none, multi_hand := true,
      skip_inference := true }
  else if isActive right_hand_data then
    { hand_landmarks := some (toXY right_hand_data), handedness := some .right,
      multi_hand := false, skip_inference := false }
  else if isActive left_hand_data then
    { hand_landmarks := some (toXY left_hand_data), handedness := some .left,
      multi_hand := false, skip_inference := false }
  else
    { hand_landmarks := none, handedness := none, multi_hand := false,
      skip_inference := true }

/-- Embedding of `LetterASLService.pre_process_landmark`: translate by the wrist point
(index 0), flatten, and scale by the maximum absolute value, mapping
everything to 0 when that maximum is 0. -/
def pre_process_landmark (pts : List (ℚ × ℚ)) : List ℚ :=
  let base := pts.headD (0, 0)
  let rel := pts.map (fun p => (p.1 - base.1, p.2 - base.2))
  let flat := rel.foldr (fun p acc => p.1 :: p.2 :: acc) []
  let max_value := (flat.map (fun v => |v|)).foldr max 0
  flat.map (fun n => if max_value = 0 then 0 else n / max_value)

/-- Embedding of `KeyPointClassifier.__call__` input preparation: the tensor is fed
`landmark_list[2:]`, i.e. everything except the first two values. -/
def keypoint_classifier_input (landmark_list : List ℚ) : List ℚ :=
  landmark_list.drop 2

theorem toXY_length : ∀ (n : ℕ) (l : List ℚ), l.length = 3 * n → (toXY l).length = n := by
  intro n
  induction n with
  | zero =>
      intro l h
      have h0 : l = [] := List.length_eq_zero.mp (by omega)
      subst h0
      rfl
  | succ k ih =>
      intro l h
      cases l with
      | nil => simp only [List.length_nil] at h; omega
      | cons a l1 =>
          cases l1 with
          | nil => simp only [List.length_cons, List.length_nil] at h; omega
          | cons b l2 =>
              cases l2 with
              | nil => simp only [List.length_cons, List.length_nil] at h; omega
              | cons c rest =>
                  rw [toXY]
                  rw [List.length_cons, ih rest (by simp at h; omega)]

theorem flat_length (l : List (ℚ × ℚ)) :
    (l.foldr (fun p acc => p.1 :: p.2 :: acc) ([] : List ℚ)).length = 2 * l.length := by
  induction l with
  | nil => rfl
  | cons p rest ih => simp [List.foldr_cons, ih]; omega

theorem pre_process_landmark_length (pts : List (ℚ × ℚ)) :
    (pre_process_landmark pts).length = 2 * pts.length := by
  unfold pre_process_landmark
  rw [List.length_map, flat_length, List.length_map]

theorem pre_process_landmark_first_two (p : ℚ × ℚ) (rest : List (ℚ × ℚ)) :
    (pre_process_landmark (p :: rest)).take 2 = [0, 0] := by
  unfold pre_process_landmark
  simp only [List.headD_cons, List.map_cons, List.foldr_cons, List.map_cons, sub_self]
  rw [List.take_cons, List.take_cons, List.take_zero]
  congr 1 <;> [skip; congr 1]
  all_goals
    by_cases hm : ((((p :: rest).map fun q => (q.1 - p.1, q.2 - p.2)).foldr
        (fun q acc => q.1 :: q.2 :: acc) ([] : List ℚ)).map (fun v => |v|)).foldr max 0 = 0
  all_goals simp_all

/-- C9 (classifier input shape): for a 1662-value holistic frame with exactly
one active hand, extraction yields 21 `(x, y)` points, preprocessing yields
42 values whose first two are zero, and the tensor classifier is invoked on
exactly the last 40 of them. -/
theorem classifier_input_shape (h : List ℚ)
    (hlen : h.length = 1662)
    (hone : isActive ((h.drop 1536).take 63) ≠ isActive ((h.drop 1599).take 63)) :
    ∃ pts, (extract_hand_from_holistic h).hand_landmarks = some pts ∧
      (extract_hand_from_holistic h).skip_inference = false ∧
      pts.length = 21 ∧
      (pre_process_landmark pts).length = 42 ∧
      (pre_process_landmark pts).take 2 = [0, 0] ∧
      keypoint_classifier_input (pre_process_landmark pts) =
        (pre_process_landmark pts).drop 2 ∧
      (keypoint_classifier_input (pre_process_landmark pts)).length = 40 := by
  have hlenL : ((h.drop 1536).take 63).length = 63 := by
    rw [List.length_take, List.length_drop, hlen]
    omega
  have hlenR : ((h.drop 1599).take 63).length = 63 := by
    rw [List.length_take, List.length_drop, hlen]
    omega
  have main : ∀ (block : List ℚ), block.length = 63 →
      ∀ pts, pts = toXY block →
      pts.length = 21 ∧
      (pre_process_landmark pts).length = 42 ∧
      (pre_process_landmark pts).take 2 = [0, 0] ∧
      keypoint_classifier_input (pre_process_landmark pts) =
        (pre_process_landmark pts).drop 2 ∧
      (keypoint_classifier_input (pre_process_landmark pts)).length = 40 := by
    intro block hb pts hpts
    have h21 : pts.length = 21 := by
      rw [hpts]
      exact toXY_length 21 block (by omega)
    have h42 : (pre_process_landmark pts).length = 42 := by
      rw [pre_process_landmark_length, h21]
    refine ⟨h21, h42, ?_, rfl, ?_⟩
    · cases pts with
      | nil => simp at h21
      | cons p rest => exact pre_process_landmark_first_two p rest
    · unfold keypoint_classifier_input
      rw [List.length_drop, h42]
  unfold extract_hand_from_holistic
  cases hL : isActive ((h.drop 1536).take 63) <;>
    cases hR : isActive ((h.drop 1599).take 63)
  · exact absurd (by rw [hL, hR]) hone
  · rw [if_neg (by rw [hL, hR]; simp), if_pos (by rw [hR])]
    refine ⟨toXY ((h.drop 1599).take 63), rfl, rfl, ?_⟩
    exact main _ hlenR _ rfl
  · rw [if_neg (by rw [hL, hR]; simp), if_neg (by rw [hR]; simp), if_pos (by rw [hL])]
    refine ⟨toXY ((h.drop 1536).take 63), rfl, rfl, ?_⟩
    exact main _ hlenL _ rfl
  · exact absurd (by rw [hL, hR]) hone

/-- A concrete holistic frame: empty pose/face, left hand `[1, 2, 0, …]`,
right hand all zeros. -/
def sampleFrame : List ℚ :=
  List.replicate 1536 0 ++ (1 :: 2 :: List.replicate 61 0) ++ List.replicate 63 0

theorem sampleFrame_slices :
    (sampleFrame.drop 1536).take 63 = 1 :: 2 :: List.replicate 61 0 ∧
    (sampleFrame.drop 1599).take 63 = List.replicate 63 0 := by
  have e1 : (List.replicate 1536 (0:ℚ)).length = 1536 := List.length_replicate _ _
  have e2 : ((1 : ℚ) :: 2 :: List.replicate 61 0).length = 63 := by
    rw [List.length_cons, List.length_cons, List.length_replicate]
  have e3 : (List.replicate 1536 (0:ℚ) ++ (1 :: 2 :: List.replicate 61 0)).length = 1599 := by
    rw [List.length_append, List.length_replicate, List.length_cons, List.length_cons,
      List.length_replicate]
  constructor
  · have hd : sampleFrame.drop 1536 =
        (1 :: 2 :: List.replicate 61 0) ++ List.replicate 63 0 := by
      unfold sampleFrame
      rw [List.append_assoc]
      exact List.drop_left' e1
    rw [hd]
    exact List.take_left' e2
  · have hd : sampleFrame.drop 1599 = List.replicate 63 0 := by
      unfold sampleFrame
      exact List.drop_left' e3
    rw [hd]
    have e4 : (List.replicate 63 (0:ℚ)).length = 63 := List.length_replicate _ _
    conv_lhs => rw [← e4]
    exact List.take_length _
/-- Witness for C9 at the concrete frame. -/
theorem classifier_input_shape_witness :
    ∃ pts, (extract_hand_from_holistic sampleFrame).hand_landmarks = some pts ∧
      (extract_hand_from_holistic sampleFrame).skip_inference = false ∧
      pts.length = 21 ∧
      (pre_process_landmark pts).length = 42 ∧
      (pre_process_landmark pts).take 2 = [0, 0] ∧
      keypoint_classifier_input (pre_process_landmark pts) =
        (pre_process_landmark pts).drop 2 ∧
      (keypoint_classifier_input (pre_process_landmark pts)).length = 40 := by
  obtain ⟨hsl, hsr⟩ := sampleFrame_slices
  apply classifier_input_shape sampleFrame
  · unfold sampleFrame
    rw [List.length_append, List.length_append, List.length_replicate, List.length_cons,
      List.length_cons, List.length_replicate, List.length_replicate]
  · rw [hsl, hsr]
    have hl : isActive (1 :: 2 :: List.replicate 61 0) = true := by
      simp only [isActive, List.any_eq_true, decide_eq_true_eq]
      refine ⟨1, by simp, by norm_num⟩
    have hr : isActive (List.replicate 63 (0 : ℚ)) = false := by
      rw [Bool.eq_false_iff]
      intro hcontra
      simp only [isActive, List.any_eq_true, decide_eq_true_eq] at hcontra
      obtain ⟨x, hx, hgt⟩ := hcontra
      rw [List.eq_of_mem_replicate hx] at hgt
      norm_num at hgt
    rw [hl, hr]
    simp

/-- C8 amended (alias validation): with the alias and surface uppercased and
whitespace-trimmed first, `validate_alias` accepts exactly when the trimmed
alias matches `[A-Z0-9\-\s]{2,40}`, the space/hyphen-stripped strings are
within Levenshtein distance 2, and the confusion-weighted score is ≥ 0.5;
the returned score is exactly the confusion-weighted score. -/
theorem validate_alias_spec (surface al : List Char) :
    ((validate_alias surface al).1 = true ↔
      (regexOk (trimWS (toUpperL al)) = true ∧
       lev (stripSH (trimWS (toUpperL surface))) (stripSH (trimWS (toUpperL al))) ≤ 2 ∧
       1/2 ≤ confusion_weighted_edit_distance (trimWS (toUpperL surface))
         (trimWS (toUpperL al)))) ∧
    ((validate_alias surface al).1 = true →
      (validate_alias surface al).2 =
        confusion_weighted_edit_distance (trimWS (toUpperL surface))
          (trimWS (toUpperL al))) := by
  unfold validate_alias
  by_cases hlen : (trimWS (toUpperL al)).length < 2 ∨ 40 < (trimWS (toUpperL al)).length
  · rw [if_pos hlen]
    constructor
    · constructor
      · intro hcontra; exact absurd hcontra (by simp)
      · rintro ⟨hreg, -, -⟩
        exfalso
        simp only [regexOk, Bool.and_eq_true, decide_eq_true_eq] at hreg
        omega
    · intro hcontra; exact absurd hcontra (by simp)
  · rw [if_neg hlen]
    by_cases hreg : regexOk (trimWS (toUpperL al)) = true
    · rw [if_neg (not_not_intro hreg)]
      dsimp only
      by_cases hlev : 2 < levenshtein_distance (stripSH (trimWS (toUpperL surface)))
          (stripSH (trimWS (toUpperL al)))
      · rw [if_pos hlev]
        rw [levenshtein_distance_eq_lev] at hlev
        constructor
        · constructor
          · intro hcontra; exact absurd hcontra (by simp)
          · rintro ⟨-, hle, -⟩
            exfalso
            omega
        · intro hcontra; exact absurd hcontra (by simp)
      · rw [if_neg hlev]
        rw [levenshtein_distance_eq_lev] at hlev
        by_cases hsc : confusion_weighted_edit_distance (trimWS (toUpperL surface))
            (trimWS (toUpperL al)) < 1/2
        · rw [if_pos hsc]
          constructor
          · constructor
            · intro hcontra; exact absurd hcontra (by simp)
            · rintro ⟨-, -, hge⟩
              exact absurd hsc (not_lt.mpr hge)
          · intro hcontra; exact absurd hcontra (by simp)
        · rw [if_neg hsc]
          refine ⟨⟨fun _ => ⟨hreg, by omega, le_of_not_lt hsc⟩, fun _ => rfl⟩, fun _ => rfl⟩
    · rw [if_pos hreg]
      constructor
      · constructor
        · intro hcontra; exact absurd hcontra (by simp)
        · rintro ⟨hr, -, -⟩
          exact absurd hr hreg
      · intro hcontra; exact absurd hcontra (by simp)

/-- C8 counterexample: for surface `"AB"` and alias `" A"` the claim's
conditions on the (untrimmed) uppercased alias all hold — the regex matches
(length 2, space is in `\s`), the stripped strings `"AB"`/`"A"` are within
edit distance 2, and the confusion-weighted score is exactly 0.5 — yet
`validate_alias` rejects, because it trims the alias to `"A"` first and the
trimmed length falls below 2. -/
theorem alias_validation_counterexample :
    (validate_alias ['A', 'B'] [' ', 'A']).1 = false ∧
    regexOk (toUpperL [' ', 'A']) = true ∧
    lev (stripSH (toUpperL ['A', 'B'])) (stripSH (toUpperL [' ', 'A'])) ≤ 2 ∧
    (1 : ℚ)/2 ≤ confusion_weighted_edit_distance (toUpperL ['A', 'B'])
      (toUpperL [' ', 'A']) := by
  refine ⟨by decide, by decide, ?_, ?_⟩
  · have hs1 : stripSH (toUpperL ['A', 'B']) = ['A', 'B'] := by decide
    have hs2 : stripSH (toUpperL [' ', 'A']) = ['A'] := by decide
    rw [hs1, hs2, lev_cons_eq, lev_nil_right]
    simp
  · have hu1 : toUpperL ['A', 'B'] = ['A', 'B'] := by decide
    have hu2 : toUpperL [' ', 'A'] = [' ', 'A'] := by decide
    rw [hu1, hu2]
    unfold confusion_weighted_edit_distance
    have hs1 : stripSH ['A', 'B'] = ['A', 'B'] := by decide
    have hs2 : stripSH [' ', 'A'] = ['A'] := by decide
    simp only [hs1, hs2]
    have hld : levenshtein_distance ['A', 'B'] ['A'] = 1 := by decide
    rw [hld]
    norm_num [List.zip_cons_cons, List.zip_nil_right]

/-- Witness for the amended C8: surface `"AWS"`, alias `"A W S"` is accepted
and the returned score is the confusion-weighted score (here 1). -/
theorem validate_alias_spec_witness :
    (validate_alias ['A', 'W', 'S'] ['A', ' ', 'W', ' ', 'S']).1 = true ∧
    (validate_alias ['A', 'W', 'S'] ['A', ' ', 'W', ' ', 'S']).2 =
      confusion_weighted_edit_distance (trimWS (toUpperL ['A', 'W', 'S']))
        (trimWS (toUpperL ['A', ' ', 'W', ' ', 'S'])) := by
  have hu1 : trimWS (toUpperL ['A', 'W', 'S']) = ['A', 'W', 'S'] := by decide
  have hu2 : trimWS (toUpperL ['A', ' ', 'W', ' ', 'S']) = ['A', ' ', 'W', ' ', 'S'] := by
    decide
  have hs1 : stripSH ['A', 'W', 'S'] = ['A', 'W', 'S'] := by decide
  have hs2 : stripSH ['A', ' ', 'W', ' ', 'S'] = ['A', 'W', 'S'] := by decide
  have hcw : confusion_weighted_edit_distance (trimWS (toUpperL ['A', 'W', 'S']))
      (trimWS (toUpperL ['A', ' ', 'W', ' ', 'S'])) = 1 := by
    rw [hu1, hu2]
    unfold confusion_weighted_edit_distance
    simp only [hs1, hs2]
    have hld : levenshtein_distance ['A', 'W', 'S'] ['A', 'W', 'S'] = 0 := by decide
    rw [hld]
    norm_num [List.zip_cons_cons, List.zip_nil_right]
  have h1 : (validate_alias ['A', 'W', 'S'] ['A', ' ', 'W', ' ', 'S']).1 = true := by
    apply (validate_alias_spec ['A', 'W', 'S'] ['A', ' ', 'W', ' ', 'S']).1.mpr
    refine ⟨by decide, ?_, ?_⟩
    · rw [hu1, hu2, hs1, hs2]
      have h0 : lev ['A', 'W', 'S'] ['A', 'W', 'S'] = 0 := (lev_eq_zero_iff _ _).mpr rfl
      omega
    · rw [hcw]
      norm_num
  exact ⟨h1, (validate_alias_spec ['A', 'W', 'S'] ['A', ' ', 'W', ' ', 'S']).2 h1⟩
